import Mathlib

/- Verification of the flashcard generator core subsystem: token-aware chunking
   (src/utils/chunking.py) and the robust multi-format output parser plus the
   generation orchestrator (src/utils/llm.py).  Python strings are modelled as
   Lean String values; the Python string helpers used by the source (strip,
   splitlines, split with maxsplit, the anchored regex substitutions) are
   embedded explicitly below. -/

namespace Flashgen

/-- Whitespace as recognized by Python str.strip, str.isspace and regex \s on
text strings: ASCII whitespace, the separator control codes and the Unicode
space characters. -/
def pyWs (c : Char) : Bool :=
  c.toNat == 0x20 || (0x09 ≤ c.toNat && c.toNat ≤ 0x0d) ||
  (0x1c ≤ c.toNat && c.toNat ≤ 0x1f) ||
  c.toNat == 0x85 || c.toNat == 0xa0 || c.toNat == 0x1680 ||
  (0x2000 ≤ c.toNat && c.toNat ≤ 0x200a) ||
  c.toNat == 0x2028 || c.toNat == 0x2029 || c.toNat == 0x202f ||
  c.toNat == 0x205f || c.toNat == 0x3000

/-- Python str.strip on a character list: drop whitespace from both ends. -/
def stripList (cs : List Char) : List Char :=
  ((cs.dropWhile pyWs).reverse.dropWhile pyWs).reverse

/-- Python str.strip. -/
def pyStrip (s : String) : String :=
  ⟨stripList s.data⟩

/-- Locate the first occurrence of sep in a character list, returning the
characters before it and the characters after it. -/
def splitFirstL (sep : List Char) : List Char → Option (List Char × List Char)
  | [] => if sep.isEmpty then some ([], []) else none
  | c :: rest =>
    if sep.isPrefixOf (c :: rest) then some ([], (c :: rest).drop sep.length)
    else
      match splitFirstL sep rest with
      | some (pre, post) => some (c :: pre, post)
      | none => none

/-- Python substring containment test, sep in s. -/
def pyIn (sep s : String) : Bool :=
  (splitFirstL sep.data s.data).isSome

/-- Python s.split(sep, 1): the text up to the first occurrence of sep, or the
whole text when sep does not occur (index 0 of the split result). -/
def pyBeforeFirst (sep cs : List Char) : List Char :=
  match splitFirstL sep cs with
  | some (pre, _) => pre
  | none => cs

/-- Python s.split(sep, 1)[1]: the text after the first occurrence of sep.
The source only evaluates this under a containment guard or inside a
try/except, so the none branch is unreachable there (shown by the
exception-aware definitions further below). -/
def pyAfterFirst (sep cs : List Char) : List Char :=
  match splitFirstL sep cs with
  | some (_, post) => post
  | none => []

/-- Line-break characters recognized by Python str.splitlines. -/
def isLineBreak (c : Char) : Bool :=
  (0x0a ≤ c.toNat && c.toNat ≤ 0x0d) ||
  (0x1c ≤ c.toNat && c.toNat ≤ 0x1e) ||
  c.toNat == 0x85 || c.toNat == 0x2028 || c.toNat == 0x2029

/-- Worker for Python str.splitlines: acc holds the current line reversed
and the flag records that the previous character was a carriage return whose
break was already emitted, so that an immediately following newline is
consumed silently (carriage return plus newline count as one break). -/
def pySplitlinesGo : List Char → List Char → Bool → List String
  | [], acc, _ => if acc.isEmpty then [] else [⟨acc.reverse⟩]
  | c :: rest, acc, afterCR =>
    if afterCR = true ∧ c = '\n' then pySplitlinesGo rest acc false
    else if c = '\r' then ⟨acc.reverse⟩ :: pySplitlinesGo rest [] true
    else if isLineBreak c then ⟨acc.reverse⟩ :: pySplitlinesGo rest [] false
    else pySplitlinesGo rest (c :: acc) false

/-- Python str.splitlines: split at line breaks, producing no trailing empty
line for a trailing break. -/
def pySplitlines (s : String) : List String :=
  pySplitlinesGo s.data [] false

/-- Worker for regex sub of a whitespace run by a single space; the flag
records whether the previous character was inside a whitespace run. -/
def collapseWsGo : List Char → Bool → List Char
  | [], _ => []
  | c :: rest, inRun =>
    if pyWs c then
      if inRun then collapseWsGo rest true else ' ' :: collapseWsGo rest true
    else c :: collapseWsGo rest false

/-- Python re.sub of any whitespace run by a single space. -/
def collapseWs (cs : List Char) : List Char :=
  collapseWsGo cs false

/-- Match a literal lowercase word case-insensitively at the head of the
input, returning the rest of the input on success. -/
def matchCI : List Char → List Char → Option (List Char)
  | [], cs => some cs
  | _ :: _, [] => none
  | p :: ps, c :: cs => if c.toLower == p then matchCI ps cs else none

/-- Match word then a colon or hyphen then optional whitespace, as in the
labelled-card regexes of the source; returns the rest on success. -/
def labelTail (word cs : List Char) : Option (List Char) :=
  match matchCI word cs with
  | some (c :: rest) =>
    if c == ':' || c == '-' then some (rest.dropWhile pyWs) else none
  | _ => none

/-- Anchored match of the question-label regex of the source (optional
whitespace, then q or question case-insensitively, then colon or hyphen, then
optional whitespace); returns the text after the match. -/
def qLabel (cs : List Char) : Option (List Char) :=
  let p := cs.dropWhile pyWs
  match labelTail ['q', 'u', 'e', 's', 't', 'i', 'o', 'n'] p with
  | some r => some r
  | none => labelTail ['q'] p

/-- Anchored match of the answer-label regex of the source, as qLabel. -/
def aLabel (cs : List Char) : Option (List Char) :=
  let p := cs.dropWhile pyWs
  match labelTail ['a', 'n', 's', 'w', 'e', 'r'] p with
  | some r => some r
  | none => labelTail ['a'] p

/-- Regex sub of the question label by the empty string (no change when the
regex does not match). -/
def stripQ (cs : List Char) : List Char :=
  (qLabel cs).getD cs

/-- Regex sub of the answer label by the empty string. -/
def stripA (cs : List Char) : List Char :=
  (aLabel cs).getD cs

/-- Bullet characters of the numbering regex. -/
def isBulletChar (c : Char) : Bool :=
  c == '-' || c == '•' || c == '*'

/-- Decimal digit test. -/
def isDigitChar (c : Char) : Bool :=
  48 ≤ c.toNat && c.toNat ≤ 57

/-- Core alternatives of the numbering regex: digits followed by a closing
mark, or a single bullet character; trailing whitespace is consumed. -/
def numCore (l : List Char) : Option (List Char) :=
  match l with
  | [] => none
  | c :: rest =>
    if isDigitChar c then
      match rest.dropWhile isDigitChar with
      | d :: r =>
        if d == ')' || d == '.' || d == '-' || d == ':' then
          some (r.dropWhile pyWs)
        else none
      | [] => none
    else if isBulletChar c then some (rest.dropWhile pyWs)
    else none

/-- Anchored match of the full numbering regex: optional whitespace, an
optional bullet, optional whitespace, then the core; the greedy optional
bullet is tried first and given back on failure, as the regex engine does. -/
def numTail (cs : List Char) : Option (List Char) :=
  let p := cs.dropWhile pyWs
  match p with
  | b :: p1 =>
    if isBulletChar b then
      match numCore (p1.dropWhile pyWs) with
      | some r => some r
      | none => numCore p
    else numCore p
  | [] => none

/-- Regex sub of the numbering markup by the empty string. -/
def stripNum (cs : List Char) : List Char :=
  (numTail cs).getD cs

/-- The shared cleaning step of the source: strip, remove numbering markup,
remove a leading question label, remove a leading answer label, collapse
whitespace runs and strip again. -/
def cleanPiece (s : String) : String :=
  ⟨stripList (collapseWs (stripA (stripQ (stripNum (stripList s.data)))))⟩

/-- A flashcard record as produced by the parsing subsystem. -/
structure Flashcard where
  question : String
  answer : String
  source_chunk : Nat
  deriving DecidableEq, Repr

/-- Per-line body of the tab-separated extractor of the source: skip blank
lines and lines without a tab, split at the first tab, clean both sides and
keep the card only when both sides are non-empty. -/
def tsvLine (raw : String) : List Flashcard :=
  let line := pyStrip raw
  if line = "" then []
  else
    match splitFirstL ['\t'] line.data with
    | none => []
    | some (qc, ac) =>
      let q := cleanPiece ⟨qc⟩
      let a := cleanPiece ⟨ac⟩
      if q ≠ "" ∧ a ≠ "" then [⟨q, a, 0⟩] else []

/-- The tab-separated extractor of the source. -/
def parseTsvLines (text : String) : List Flashcard :=
  (pySplitlines text).foldl (fun out raw => out ++ tsvLine raw) []

/-- Python line.lower().startswith(p) for a lowercase literal p. -/
def lowerStarts (s : String) (p : List Char) : Bool :=
  p.isPrefixOf (s.data.map Char.toLower)

/-- Per-line body of the single-line labelled extractor: a case-sensitive
answer delimiter together with a case-insensitive question label. -/
def oneLineCards (raw : String) : List Flashcard :=
  let line := pyStrip raw
  if line = "" then []
  else if pyIn " A:" line && lowerStarts line ['q', ':'] then
    let q := cleanPiece ⟨pyBeforeFirst (" A:".data) (pyAfterFirst [':'] line.data)⟩
    let a := cleanPiece ⟨pyAfterFirst (" A:".data) line.data⟩
    if q ≠ "" ∧ a ≠ "" then [⟨q, a, 0⟩] else []
  else if pyIn " Answer:" line &&
      (lowerStarts line ['q', ':'] ||
        lowerStarts line ['q', 'u', 'e', 's', 't', 'i', 'o', 'n', ':']) then
    let q := cleanPiece ⟨pyBeforeFirst (" Answer:".data) (pyAfterFirst [':'] line.data)⟩
    let a := cleanPiece ⟨pyAfterFirst (" Answer:".data) line.data⟩
    if q ≠ "" ∧ a ≠ "" then [⟨q, a, 0⟩] else []
  else []

/-- The single-line labelled extractor of the source. -/
def parseQAOneLine (text : String) : List Flashcard :=
  (pySplitlines text).foldl (fun out raw => out ++ oneLineCards raw) []

/-- Question-label regex match test used by the two-line extractor. -/
def qMatch (s : String) : Bool :=
  (qLabel s.data).isSome

/-- Answer-label regex match test used by the two-line extractor. -/
def aMatch (s : String) : Bool :=
  (aLabel s.data).isSome

/-- Card built from a matched question line and answer line pair. -/
def twoLineCard (l1 l2 : String) : List Flashcard :=
  let q := cleanPiece ⟨stripQ l1.data⟩
  let a := cleanPiece ⟨stripA l2.data⟩
  if q ≠ "" ∧ a ≠ "" then [⟨q, a, 0⟩] else []

/-- Loop of the two-line extractor: while at least two lines remain, consume
two lines on a label match and one line otherwise.  The fuel argument only
bounds the iteration count; the caller passes the line count, which always
suffices since every step consumes at least one line. -/
def twoLoopF : Nat → List String → List Flashcard
  | 0, _ => []
  | _ + 1, [] => []
  | _ + 1, [_] => []
  | fuel + 1, l1 :: l2 :: rest =>
    if qMatch l1 && aMatch l2 then twoLineCard l1 l2 ++ twoLoopF fuel rest
    else twoLoopF fuel (l2 :: rest)

/-- Stripped non-empty lines, as built at the start of the two-line extractor. -/
def nonEmptyLines (text : String) : List String :=
  ((pySplitlines text).map pyStrip).filter (fun l => l ≠ "")

/-- The two-line labelled extractor of the source. -/
def parseQATwoLines (text : String) : List Flashcard :=
  let lines := nonEmptyLines text
  twoLoopF lines.length lines

/-- Separator list of the numbered/bulleted extractor, in source order. -/
def sepsList : List String :=
  [" - ", " — ", " : ", " – "]

/-- Body shared by the split outcomes of the numbered/bulleted extractor:
clean both sides, re-strip a redundant label when the cleaned side still
starts with one, and keep the card only when both sides are non-empty. -/
def sepCard (q0 a0 : String) : List Flashcard :=
  let q := cleanPiece q0
  let a := cleanPiece a0
  let q := if lowerStarts q ['q', ':'] ||
      lowerStarts q ['q', 'u', 'e', 's', 't', 'i', 'o', 'n', ':'] then
      cleanPiece q else q
  let a := if lowerStarts a ['a', ':'] ||
      lowerStarts a ['a', 'n', 's', 'w', 'e', 'r', ':'] then
      cleanPiece a else a
  if q ≠ "" ∧ a ≠ "" then [⟨q, a, 0⟩] else []

/-- Separator loop of the numbered/bulleted extractor: the first separator of
the list that occurs in the line wins (the loop breaks), and the line is split
at that separator's first occurrence. -/
def sepLoop : List String → String → List Flashcard
  | [], _ => []
  | sep :: more, line =>
    if pyIn sep line then
      sepCard ⟨pyBeforeFirst sep.data line.data⟩ ⟨pyAfterFirst sep.data line.data⟩
    else sepLoop more line

/-- Per-line body of the numbered/bulleted extractor. -/
def numberedLine (raw : String) : List Flashcard :=
  let line := pyStrip raw
  if line = "" then []
  else sepLoop sepsList ⟨stripNum line.data⟩

/-- The numbered/bulleted-pairs extractor of the source. -/
def parseNumberedPairs (text : String) : List Flashcard :=
  (pySplitlines text).foldl (fun out raw => out ++ numberedLine raw) []

/-- JSON values as produced by Python json.loads.  Number literals keep their
lexeme; the special constants NaN and Infinity are stored with the rendering
Python str gives them, so that str() of a parsed number agrees with Python on
canonical integer and constant literals (for non-canonical float literals the
rendering differs, which no claim exercises). -/
inductive JVal where
  | null
  | bool (b : Bool)
  | num (raw : String)
  | str (s : String)
  | arr (items : List JVal)
  | obj (fields : List (String × JVal))
  deriving Repr

/-- JSON inter-token whitespace. -/
def jWs (c : Char) : Bool :=
  c == ' ' || c == '\t' || c == '\n' || c == '\r'

/-- Hexadecimal digit value. -/
def hexVal (c : Char) : Option Nat :=
  if 48 ≤ c.toNat && c.toNat ≤ 57 then some (c.toNat - 48)
  else if 97 ≤ c.toNat && c.toNat ≤ 102 then some (c.toNat - 87)
  else if 65 ≤ c.toNat && c.toNat ≤ 70 then some (c.toNat - 55)
  else none

/-- Value of four hexadecimal digits. -/
def hex4 (h1 h2 h3 h4 : Char) : Option Nat :=
  match hexVal h1, hexVal h2, hexVal h3, hexVal h4 with
  | some a, some b, some c, some d => some (((a * 16 + b) * 16 + c) * 16 + d)
  | _, _, _, _ => none

/-- JSON string body scanner, after the opening quote: strict mode, so
unescaped control characters are rejected; surrogate escape pairs combine
into one character and a lone surrogate maps to the default character (Lean
Char cannot hold a lone surrogate, a corner Python permits). -/
def jStringGo : Nat → List Char → List Char → Option (List Char × List Char)
  | _, [], _ => none
  | 0, _ :: _, _ => none
  | _ + 1, '"' :: rest, acc => some (acc.reverse, rest)
  | fuel + 1, '\\' :: 'u' :: h1 :: h2 :: h3 :: h4 :: rest, acc =>
    (match hex4 h1 h2 h3 h4 with
     | none => none
     | some n =>
       if 0xd800 ≤ n && n ≤ 0xdbff then
         match rest with
         | '\\' :: 'u' :: g1 :: g2 :: g3 :: g4 :: rest2 =>
           (match hex4 g1 g2 g3 g4 with
            | some m =>
              if 0xdc00 ≤ m && m ≤ 0xdfff then
                jStringGo fuel rest2
                  (Char.ofNat (0x10000 + (n - 0xd800) * 0x400 + (m - 0xdc00)) :: acc)
              else jStringGo fuel rest2 (Char.ofNat m :: Char.ofNat n :: acc)
            | none => none)
         | _ => jStringGo fuel rest (Char.ofNat n :: acc)
       else jStringGo fuel rest (Char.ofNat n :: acc))
  | fuel + 1, '\\' :: e :: rest, acc =>
    if e == '"' then jStringGo fuel rest ('"' :: acc)
    else if e == '\\' then jStringGo fuel rest ('\\' :: acc)
    else if e == '/' then jStringGo fuel rest ('/' :: acc)
    else if e == 'b' then jStringGo fuel rest ('\u0008' :: acc)
    else if e == 'f' then jStringGo fuel rest ('\u000c' :: acc)
    else if e == 'n' then jStringGo fuel rest ('\n' :: acc)
    else if e == 'r' then jStringGo fuel rest ('\r' :: acc)
    else if e == 't' then jStringGo fuel rest ('\t' :: acc)
    else none
  | fuel + 1, c :: rest, acc =>
    if c.toNat < 0x20 then none else jStringGo fuel rest (c :: acc)

/-- JSON number lexer, following the strict grammar of the json module:
optional sign, an integer part without redundant leading zero, then optional
fraction and exponent; returns the lexeme. -/
def jNumber (cs : List Char) : Option (List Char × List Char) :=
  let signed := cs.head? = some '-'
  let cs1 := if signed then cs.tail else cs
  match cs1 with
  | [] => none
  | d :: r =>
    if d == '0' ∨ (isDigitChar d && !(d == '0')) then
      let intDigits := if d == '0' then [d] else d :: r.takeWhile isDigitChar
      let afterInt := if d == '0' then r else r.dropWhile isDigitChar
      let fracPart :=
        match afterInt with
        | '.' :: f :: fr =>
          if isDigitChar f then some ('.' :: f :: fr.takeWhile isDigitChar, fr.dropWhile isDigitChar)
          else none
        | _ => none
      let (fracDigits, afterFrac) := fracPart.getD ([], afterInt)
      let expPart :=
        match afterFrac with
        | e :: er =>
          if e == 'e' || e == 'E' then
            let (sgn, er2) :=
              match er with
              | s :: sr => if s == '+' || s == '-' then ([s], sr) else ([], er)
              | [] => ([], er)
            match er2 with
            | x :: xr =>
              if isDigitChar x then some (e :: sgn ++ x :: xr.takeWhile isDigitChar, xr.dropWhile isDigitChar)
              else none
            | [] => none
          else none
        | [] => none
      let (expDigits, afterExp) := expPart.getD ([], afterFrac)
      let sgnChars : List Char := if signed then ['-'] else []
      some (sgnChars ++ intDigits ++ fracDigits ++ expDigits, afterExp)
    else none

mutual

/-- JSON value parser with fuel; the fuel passed by jsonLoads always
suffices because every recursive step first consumes at least one input
character. -/
def jsonVal : Nat → List Char → Option (JVal × List Char)
  | 0, _ => none
  | fuel + 1, cs0 =>
    let cs := cs0.dropWhile jWs
    if ['n', 'u', 'l', 'l'].isPrefixOf cs then some (.null, cs.drop 4)
    else if ['t', 'r', 'u', 'e'].isPrefixOf cs then some (.bool true, cs.drop 4)
    else if ['f', 'a', 'l', 's', 'e'].isPrefixOf cs then some (.bool false, cs.drop 5)
    else if ['N', 'a', 'N'].isPrefixOf cs then some (.num "nan", cs.drop 3)
    else if ['I', 'n', 'f', 'i', 'n', 'i', 't', 'y'].isPrefixOf cs then
      some (.num "inf", cs.drop 8)
    else if ['-', 'I', 'n', 'f', 'i', 'n', 'i', 't', 'y'].isPrefixOf cs then
      some (.num "-inf", cs.drop 9)
    else
      match cs with
      | [] => none
      | '"' :: rest =>
        (match jStringGo (rest.length + 1) rest [] with
         | some (s, r) => some (.str ⟨s⟩, r)
         | none => none)
      | '[' :: rest =>
        (match rest.dropWhile jWs with
         | ']' :: r2 => some (.arr [], r2)
         | _ =>
           match jsonVal fuel rest with
           | some (v, r2) => jsonArrRest fuel [v] r2
           | none => none)
      | '{' :: rest =>
        (match rest.dropWhile jWs with
         | '}' :: r2 => some (.obj [], r2)
         | _ => jsonObjGo fuel [] rest)
      | _ =>
        match jNumber cs with
        | some (lexeme, r) => some (.num ⟨lexeme⟩, r)
        | none => none

/-- Remaining elements of a JSON array, after at least one element. -/
def jsonArrRest : Nat → List JVal → List Char → Option (JVal × List Char)
  | 0, _, _ => none
  | fuel + 1, accRev, cs =>
    match cs.dropWhile jWs with
    | ',' :: r =>
      (match jsonVal fuel r with
       | some (v, r2) => jsonArrRest fuel (v :: accRev) r2
       | none => none)
    | ']' :: r => some (.arr accRev.reverse, r)
    | _ => none

/-- Members of a JSON object, expecting a key next. -/
def jsonObjGo : Nat → List (String × JVal) → List Char → Option (JVal × List Char)
  | 0, _, _ => none
  | fuel + 1, acc, cs =>
    match cs.dropWhile jWs with
    | '"' :: rest =>
      (match jStringGo (rest.length + 1) rest [] with
       | some (k, r1) =>
         (match r1.dropWhile jWs with
          | ':' :: r2 =>
            (match jsonVal fuel r2 with
             | some (v, r3) =>
               (match r3.dropWhile jWs with
                | ',' :: r4 => jsonObjGo fuel (acc ++ [(⟨k⟩, v)]) r4
                | '}' :: r4 => some (.obj (acc ++ [(⟨k⟩, v)]), r4)
                | _ => none)
             | none => none)
          | _ => none)
       | none => none)
    | _ => none

end

/-- Python json.loads: parse one value and require only whitespace after it. -/
def jsonLoads (s : String) : Option JVal :=
  match jsonVal (s.length + 1) s.data with
  | some (v, rest) => if (rest.dropWhile jWs).isEmpty then some v else none
  | none => none

mutual

/-- Python repr of a parsed JSON value (string quoting is simplified: inner
quotes are not re-escaped, which no claim exercises). -/
def pyReprJ : JVal → String
  | .null => "None"
  | .bool true => "True"
  | .bool false => "False"
  | .num raw => raw
  | .str s => "\x27" ++ s ++ "\x27"
  | .arr items => "[" ++ pyReprArr items ++ "]"
  | .obj fields => "\x7b" ++ pyReprObj fields ++ "\x7d"

/-- Comma-joined reprs of list items. -/
def pyReprArr : List JVal → String
  | [] => ""
  | [v] => pyReprJ v
  | v :: vs => pyReprJ v ++ ", " ++ pyReprArr vs

/-- Comma-joined reprs of dict items. -/
def pyReprObj : List (String × JVal) → String
  | [] => ""
  | [(k, v)] => "\x27" ++ k ++ "\x27: " ++ pyReprJ v
  | (k, v) :: kvs => "\x27" ++ k ++ "\x27: " ++ pyReprJ v ++ ", " ++ pyReprObj kvs

end

/-- Python str of a parsed JSON value. -/
def pyStrJ : JVal → String
  | .str s => s
  | v => pyReprJ v

/-- Python dict.get(k, "") on a parsed object: the last binding wins, and the
default is the empty string. -/
def objGet (kvs : List (String × JVal)) (k : String) : JVal :=
  match kvs.reverse.find? (fun kv => kv.1 == k) with
  | some kv => kv.2
  | none => .str ""

/-- Body shared by both loads attempts of the JSON extractor: non-list data
and non-dict or missing-field items are skipped. -/
def jsonHandle (data : JVal) : List Flashcard :=
  match data with
  | .arr items =>
    items.foldl (fun out item =>
      match item with
      | .obj kvs =>
        let q := cleanPiece (pyStrJ (objGet kvs "question"))
        let a := cleanPiece (pyStrJ (objGet kvs "answer"))
        if q ≠ "" ∧ a ≠ "" then out ++ [⟨q, a, 0⟩] else out
      | _ => out) []
  | _ => []

/-- Python text.find(pat): index of the first occurrence. -/
def strFindIdx (s pat : String) : Option Nat :=
  (splitFirstL pat.data s.data).map (fun p => p.1.length)

/-- Python text.rfind for a single character: index of the last occurrence. -/
def strRFindIdx (s : String) (c : Char) : Option Nat :=
  match splitFirstL [c] s.data.reverse with
  | some (pre, _) => some (s.data.length - 1 - pre.length)
  | none => none

/-- The JSON-list extractor of the source: direct parse first, then a retry
on the outermost bracketed substring, returning no cards when both fail. -/
def parseJsonList (text : String) : List Flashcard :=
  match jsonLoads text with
  | some data => jsonHandle data
  | none =>
    match strFindIdx text "[", strRFindIdx text ']' with
    | some start, some e =>
      if start < e then
        match jsonLoads ⟨(text.data.drop start).take (e + 1 - start)⟩ with
        | some data => jsonHandle data
        | none => []
      else []
    | _, _ => []

/-- First non-empty extractor result, as the dispatch loop of the source. -/
def firstNonempty : List (List Flashcard) → List Flashcard
  | [] => []
  | cs :: rest => if cs.isEmpty then firstNonempty rest else cs

/-- The layered fallback parser of the source, trying the five extractors in
the fixed priority order. -/
def robustParseAny (text : String) : List Flashcard :=
  firstNonempty [parseTsvLines text, parseQAOneLine text, parseQATwoLines text,
    parseNumberedPairs text, parseJsonList text]

/-- Newline-terminated segments of a character list; every segment but the
last ends with a newline and the last has none (it may be empty). -/
def linesKeepNl : List Char → List (List Char)
  | [] => [[]]
  | c :: rest =>
    if c = '\n' then [c] :: linesKeepNl rest
    else
      match linesKeepNl rest with
      | [] => [[c]]
      | l :: ls => (c :: l) :: ls

/-- First character of a heading line in ALL-CAPS form. -/
def isCapsStart (c : Char) : Bool :=
  (65 ≤ c.toNat && c.toNat ≤ 90) || (48 ≤ c.toNat && c.toNat ≤ 57)

/-- Character class of the ALL-CAPS heading line body. -/
def isCapsChar (c : Char) : Bool :=
  isCapsStart c || c == ' ' || c == '-'

/-- Heading-line test of the unit splitter: a markdown heading (one to six
hashes then a space) or an ALL-CAPS line of length at least 7; because the
regex alternatives must reach the terminating newline, the ALL-CAPS
alternative matches only when the whole line is in its character class. -/
def isHeadingLine (l : List Char) : Bool :=
  (let k := (l.takeWhile (fun c => c == '#')).length
   (1 ≤ k && k ≤ 6) && (l.drop k).head? == some ' ') ||
  (7 ≤ l.length &&
    (match l.head? with | some c => isCapsStart c | none => false) &&
    l.all isCapsChar)

/-- Segment acting as a regex separator in the heading split: a heading line
together with its terminating newline. -/
def isHeadingPiece (p : List Char) : Bool :=
  p.getLast? == some '\n' && isHeadingLine p.dropLast

/-- Grouping pass of the heading split: separator segments delimit the
parts, exactly as re.split produces one more part than separators. -/
def headingGroup : List (List Char) → List Char → List (List Char)
  | [], acc => [acc]
  | p :: ps, acc =>
    if isHeadingPiece p then acc :: headingGroup ps []
    else headingGroup ps (acc ++ p)

/-- Parts of the heading-split tier. -/
def headingParts (cs : List Char) : List (List Char) :=
  headingGroup (linesKeepNl cs) []

/-- Paragraph split worker: split at runs of two or more newlines; acc is
the current part reversed and p counts newlines just seen. -/
def splitNNGo : List Char → List Char → Nat → List (List Char)
  | [], acc, p =>
    if 2 ≤ p then [acc.reverse, []] else [acc.reverse ++ List.replicate p '\n']
  | c :: rest, acc, p =>
    if c = '\n' then splitNNGo rest acc (p + 1)
    else if 2 ≤ p then acc.reverse :: splitNNGo rest [c] 0
    else splitNNGo rest (c :: (List.replicate p '\n' ++ acc)) 0

/-- Regex split at runs of two or more newlines. -/
def splitNN (cs : List Char) : List (List Char) :=
  splitNNGo cs [] 0

/-- Sentence-final punctuation of the sentence-split regex. -/
def isSentPunct (c : Char) : Bool :=
  c == '.' || c == '!' || c == '?'

/-- Sentence split worker: a separator is a maximal whitespace run whose
preceding character is sentence-final punctuation; prevP records whether the
previous character was such punctuation and skipping whether a separator run
is being consumed. -/
def splitSentGo : List Char → List Char → Bool → Bool → List (List Char)
  | [], acc, _, skipping => if skipping then [acc.reverse, []] else [acc.reverse]
  | c :: rest, acc, prevP, skipping =>
    if skipping then
      if pyWs c then splitSentGo rest acc false true
      else acc.reverse :: splitSentGo rest [c] (isSentPunct c) false
    else
      if pyWs c && prevP then splitSentGo rest acc false true
      else splitSentGo rest (c :: acc) (isSentPunct c) false

/-- Regex split at whitespace following sentence-final punctuation. -/
def splitSent (cs : List Char) : List (List Char) :=
  splitSentGo cs [] false false

/-- The tiered unit splitter of the source: heading split when it yields
more than one raw part, else paragraphs when more than one survives
stripping, else sentences; every tier strips and drops empty results. -/
def splitCandidates (text : String) : List String :=
  let parts := headingParts text.data
  if 1 < parts.length then
    ((parts.map stripList).filter (fun p => !p.isEmpty)).map
      (fun p => (⟨p⟩ : String))
  else
    let paras := ((splitNN text.data).map stripList).filter (fun p => !p.isEmpty)
    if 1 < paras.length then paras.map (fun p => (⟨p⟩ : String))
    else
      (((splitSent text.data).map stripList).filter (fun p => !p.isEmpty)).map
        (fun p => (⟨p⟩ : String))

/-- Modelled from the spec: the tokenizer adapter of section 4.1 (the external
tiktoken library, which is not part of the repository) is required only to be
a consistent, deterministic subword encoding with a matching decoder and
count 0 on the empty string.  It is modelled as the character-level encoding,
an admissible instance of that contract. -/
def encodeT (s : String) : List Char :=
  s.data

/-- Decoder of the modelled tokenizer. -/
def decodeT (l : List Char) : String :=
  ⟨l⟩

/-- Token count of a text under the modelled tokenizer. -/
def charTokens (s : String) : Nat :=
  (encodeT s).length

/-- Python double-newline join of the accumulated units. -/
def joinNN : List String → String
  | [] => ""
  | [s] => s
  | s :: rest => s ++ "\n\n" ++ joinNN rest

/-- State of the chunk packer: completed chunks, the accumulator units and
the running token count of the accumulator. -/
structure PackState where
  chunks : List String
  cur : List String
  curTok : Nat

/-- Hard-split loop of the source for an oversized accumulator: while the
running count exceeds target * 1.3, emit the first target tokens as a chunk
and re-seed the accumulator from token offset target - overlap (a Python
negative slice index counts from the end).  The comparison with the float
literal 1.3 is modelled exactly as the rational 13/10; for the parameters
used in the theorems below the two comparisons agree on integers.  The fuel
only bounds iterations: the callers pass curTok + 4, which is shown
sufficient whenever overlap < target (the loop then always exits by its
condition; with overlap >= target the Python loop itself need not
terminate). -/
def hardSplit : Nat → Nat → Nat → List String → List String → Nat → PackState
  | 0, _, _, chunks, cur, curTok => ⟨chunks, cur, curTok⟩
  | fuel + 1, target, overlap, chunks, cur, curTok =>
    if 13 * target < 10 * curTok then
      let toks := encodeT (joinNN cur)
      let part := decodeT (toks.take target)
      let startIdx : Int := (target : Int) - (overlap : Int)
      let rest := decodeT
        (if 0 ≤ startIdx then toks.drop startIdx.toNat
         else toks.drop (toks.length - (-startIdx).toNat))
      hardSplit fuel target overlap (chunks ++ [part]) [rest] (encodeT rest).length
    else ⟨chunks, cur, curTok⟩

/-- Per-unit step of the chunk packer: append the unit when it fits, else
flush the accumulator, re-seed with the trailing-overlap slice of the last
chunk (when one exists) plus the unit, and hard-split while oversized. -/
def packStep (target overlap : Nat) (st : PackState) (unit : String) : PackState :=
  let utoks := (encodeT unit).length
  if st.curTok + utoks ≤ target then
    ⟨st.chunks, st.cur ++ [unit], st.curTok + utoks⟩
  else
    let chunks := if st.cur.isEmpty then st.chunks else st.chunks ++ [joinNN st.cur]
    match chunks.getLast? with
    | some last =>
      let lastTokens := encodeT last
      let overlapSlice := decodeT (lastTokens.drop (lastTokens.length - overlap))
      let curTok := (encodeT overlapSlice).length + utoks
      hardSplit (curTok + 4) target overlap chunks [overlapSlice, unit] curTok
    | none =>
      hardSplit (utoks + 4) target overlap chunks [unit] utoks

/-- The greedy chunk packer of the source. -/
def chunk_text (text : String) (target_tokens : Nat := 1400)
    (overlap_tokens : Nat := 150) : List String :=
  let units := splitCandidates text
  let st := units.foldl (packStep target_tokens overlap_tokens) ⟨[], [], 0⟩
  if st.cur.isEmpty then st.chunks else st.chunks ++ [joinNN st.cur]

/-- Token estimate of the source, under the modelled tokenizer. -/
def estimate_tokens (text : String) : Nat :=
  charTokens text

/-- Python round to the nearest integer with ties to even, on the exact
rational num / den; the source computes the quotient in floating point,
which agrees with the exact rational at the scales exercised here. -/
def pyRound (num den : Nat) : Nat :=
  let q := num / den
  let r := num % den
  if 2 * r < den then q
  else if den < 2 * r then q + 1
  else if q % 2 = 0 then q else q + 1

/-- The corpus compressor of the source: unchanged below max_chars, else
evenly spaced windows joined with a visible marker. -/
def compress_corpus (text : String) (max_chars : Nat := 12000)
    (slices : Nat := 8) : String :=
  if text.length ≤ max_chars then text
  else
    let slice_len := max_chars / slices
    let segs := (List.range slices).map (fun i =>
      let start := pyRound (i * (text.length - slice_len)) (max 1 (slices - 1))
      (⟨(text.data.drop start).take slice_len⟩ : String))
    String.intercalate "\n...\n" segs

/-- The tightened instruction appended on the retry call; the source writes
a literal backslash-t in this Python string. -/
def strictSuffix : String :=
  "\nRespond TSV only: question\\tanswer per line; no extra text."

/-- The user prompt template of the source with corpus and count filled in. -/
def userTurbo (corpus : String) (n_total : Nat) : String :=
  "notes (compressed excerpts):\n---\n" ++ corpus ++ "\n---\n\n" ++
  "create exactly " ++ toString n_total ++
  " flashcards about the core ideas. keep answers 1–2 sentences.\n" ++
  "preferred output: one line per card, tab-separated -> question\tanswer\n" ++
  "acceptable fallback formats if needed: \x27Q: ... A: ...\x27 on one line OR two lines.\n" ++
  "do not add numbering, bullets, headers, or extra commentary."

/-- Prompt construction of the orchestrator: compress the corpus, append the
optional topic focus line, and fill the template. -/
def turboPrompt (full_text : String) (n_total : Nat)
    (topics : Option (List String)) : String :=
  let corpus := compress_corpus full_text 12000 8
  let corpus :=
    match topics with
    | some ts =>
      if ts.isEmpty then corpus
      else corpus ++ "\nFocus on: " ++ String.intercalate ", " ts
    | none => corpus
  userTurbo corpus n_total

/-- The generation orchestrator of the source.  The external model call is
the injected capability callModel from user prompt to raw completion text
(the transport parameters api_key, base_url, model name, temperature and
max_tokens configure that external collaborator and do not affect how the
returned text is processed, so they are absorbed into the capability). -/
def generate_flashcards_turbo (callModel : String → String) (full_text : String)
    (n_total : Nat) (topics : Option (List String) := none) : List Flashcard :=
  let user := turboPrompt full_text n_total topics
  let cards := robustParseAny (callModel user)
  if max 1 (n_total / 2) ≤ cards.length then cards.take n_total
  else (robustParseAny (callModel (user ++ strictSuffix))).take n_total

/-- Exceptions the parsing helpers of the source can raise: tuple-unpacking
of a split result of the wrong arity, and out-of-range list indexing.  The
json decode failure is represented by the none result of jsonLoads, and the
source catches it at every loads call site. -/
inductive PyErr where
  | valueError
  | indexError
  deriving Repr, DecidableEq

/-- Python list indexing, raising on an out-of-range index. -/
def pyIdxE {α : Type} (l : List α) (n : Nat) : Except PyErr α :=
  match l.get? n with
  | some x => .ok x
  | none => .error .indexError

/-- Python tuple unpacking of a two-element list, raising otherwise. -/
def unpack2 {α : Type} : List α → Except PyErr (α × α)
  | [a, b] => .ok (a, b)
  | _ => .error .valueError

/-- Python s.split(sep, 1) as the list Python returns. -/
def pySplitPy (s sep : String) : List String :=
  match splitFirstL sep.data s.data with
  | some (pre, post) => [⟨pre⟩, ⟨post⟩]
  | none => [s]

/-- Line loop with exception propagation: apply the per-line body to every
line, appending the produced cards, and propagate the first raised error. -/
def foldLinesE (g : String → Except PyErr (List Flashcard)) :
    List String → List Flashcard → Except PyErr (List Flashcard)
  | [], out => .ok out
  | raw :: rest, out =>
    match g raw with
    | .ok cards => foldLinesE g rest (out ++ cards)
    | .error e => .error e

/-- Exception-aware per-line body of the tab-separated extractor, with the
tuple unpacking of the source made explicit. -/
def tsvLineE (raw : String) : Except PyErr (List Flashcard) := do
  let line := pyStrip raw
  if line = "" || !(pyIn "\t" line) then return []
  let (q0, a0) ← unpack2 (pySplitPy line "\t")
  let q := cleanPiece q0
  let a := cleanPiece a0
  if q ≠ "" ∧ a ≠ "" then return [⟨q, a, 0⟩] else return []

/-- Exception-aware tab-separated extractor. -/
def parseTsvLinesE (text : String) : Except PyErr (List Flashcard) :=
  foldLinesE tsvLineE (pySplitlines text) []

/-- Try-block body of the first branch of the single-line extractor, with
the fallible indexing explicit; an error propagates to the except clause. -/
def oneLineTryA (line : String) : Except PyErr (List Flashcard) :=
  match pyIdxE (pySplitPy line ":") 1 with
  | .error e => .error e
  | .ok afterColon =>
    match pyIdxE (pySplitPy afterColon " A:") 0 with
    | .error e => .error e
    | .ok q0 =>
      match pyIdxE (pySplitPy line " A:") 1 with
      | .error e => .error e
      | .ok a0 =>
        let q := cleanPiece q0
        let a := cleanPiece a0
        if q ≠ "" ∧ a ≠ "" then .ok [⟨q, a, 0⟩] else .ok []

/-- Try-block body of the second branch of the single-line extractor. -/
def oneLineTryAnswer (line : String) : Except PyErr (List Flashcard) :=
  match pyIdxE (pySplitPy line ":") 1 with
  | .error e => .error e
  | .ok afterColon =>
    match pyIdxE (pySplitPy afterColon " Answer:") 0 with
    | .error e => .error e
    | .ok q0 =>
      match pyIdxE (pySplitPy line " Answer:") 1 with
      | .error e => .error e
      | .ok a0 =>
        let q := cleanPiece q0
        let a := cleanPiece a0
        if q ≠ "" ∧ a ≠ "" then .ok [⟨q, a, 0⟩] else .ok []

/-- Exception-aware per-line body of the single-line labelled extractor; the
indexing of the source runs inside try blocks whose except clauses skip the
line. -/
def oneLineCardsE (raw : String) : Except PyErr (List Flashcard) :=
  let line := pyStrip raw
  if line = "" then .ok []
  else if pyIn " A:" line && lowerStarts line ['q', ':'] then
    match oneLineTryA line with
    | .ok cards => .ok cards
    | .error _ => .ok []
  else if pyIn " Answer:" line &&
      (lowerStarts line ['q', ':'] ||
        lowerStarts line ['q', 'u', 'e', 's', 't', 'i', 'o', 'n', ':']) then
    match oneLineTryAnswer line with
    | .ok cards => .ok cards
    | .error _ => .ok []
  else .ok []

/-- Exception-aware single-line labelled extractor. -/
def parseQAOneLineE (text : String) : Except PyErr (List Flashcard) :=
  foldLinesE oneLineCardsE (pySplitlines text) []

/-- Exception-aware indexed loop of the two-line extractor, with the list
indexing of the source made explicit. -/
def twoGoE (lines : List String) : Nat → Nat → Except PyErr (List Flashcard)
  | 0, _ => .ok []
  | fuel + 1, i =>
    if i < lines.length - 1 then
      match pyIdxE lines i with
      | .error e => .error e
      | .ok l1 =>
        match pyIdxE lines (i + 1) with
        | .error e => .error e
        | .ok l2 =>
          if qMatch l1 && aMatch l2 then
            match twoGoE lines fuel (i + 2) with
            | .error e => .error e
            | .ok cards => .ok (twoLineCard l1 l2 ++ cards)
          else twoGoE lines fuel (i + 1)
    else .ok []

/-- Exception-aware two-line labelled extractor. -/
def parseQATwoLinesE (text : String) : Except PyErr (List Flashcard) :=
  let lines := nonEmptyLines text
  twoGoE lines lines.length 0

/-- Exception-aware separator loop of the numbered/bulleted extractor. -/
def sepLoopE : List String → String → Except PyErr (List Flashcard)
  | [], _ => .ok []
  | sep :: more, line =>
    if pyIn sep line then
      match unpack2 (pySplitPy line sep) with
      | .error e => .error e
      | .ok (q0, a0) => .ok (sepCard q0 a0)
    else sepLoopE more line

/-- Exception-aware per-line body of the numbered/bulleted extractor. -/
def numberedLineE (raw : String) : Except PyErr (List Flashcard) :=
  let line := pyStrip raw
  if line = "" then .ok []
  else sepLoopE sepsList ⟨stripNum line.data⟩

/-- Exception-aware numbered/bulleted extractor. -/
def parseNumberedPairsE (text : String) : Except PyErr (List Flashcard) :=
  foldLinesE numberedLineE (pySplitlines text) []

/-- Exception-aware JSON-list extractor: the decoder reports failure as a
value and every failure site of the source sits behind an except clause that
catches it, so the extractor cannot raise. -/
def parseJsonListE (text : String) : Except PyErr (List Flashcard) :=
  .ok (parseJsonList text)

/-- Exception-aware dispatch loop of the layered parser: errors of any
extractor propagate to the caller, as the source has no try around the
loop. -/
def robustParseAnyE (text : String) : Except PyErr (List Flashcard) := do
  let c1 ← parseTsvLinesE text
  if !c1.isEmpty then return c1
  let c2 ← parseQAOneLineE text
  if !c2.isEmpty then return c2
  let c3 ← parseQATwoLinesE text
  if !c3.isEmpty then return c3
  let c4 ← parseNumberedPairsE text
  if !c4.isEmpty then return c4
  let c5 ← parseJsonListE text
  if !c5.isEmpty then return c5
  return []

/-- Absence of line-break characters, under which Python splitlines keeps a
text as one line. -/
def noLineBreaks (s : String) : Prop :=
  ∀ c ∈ s.data, isLineBreak c = false

instance (s : String) : Decidable (noLineBreaks s) :=
  inferInstanceAs (Decidable (∀ c ∈ s.data, isLineBreak c = false))

/-- Statement-side per-line rule of the amended numbered/bulleted claim:
strip the line, remove leading numbering markup, pick the FIRST separator of
the fixed list order that occurs anywhere in the line, split at that
separator's first occurrence, clean both sides (with the redundant label
re-strip), and produce a card only when both sides are non-empty. -/
def numberedLineSpec (raw : String) : List Flashcard :=
  let line := pyStrip raw
  if line = "" then []
  else
    let stripped : String := ⟨stripNum line.data⟩
    match sepsList.find? (fun sep => pyIn sep stripped) with
    | some sep =>
      sepCard ⟨pyBeforeFirst sep.data stripped.data⟩
        ⟨pyAfterFirst sep.data stripped.data⟩
    | none => []

/-- A well-formed TSV piece for the round-trip claim: non-empty and already
normalized, i.e. invariant under the shared cleaning step (which forces the
absence of tabs, line breaks and leading or trailing whitespace). -/
def goodPiece (s : String) : Prop :=
  s ≠ "" ∧ cleanPiece s = s

/-- Sum of the token counts of a list of texts under the modelled tokenizer. -/
def tokSum (parts : List String) : Nat :=
  (parts.map charTokens).sum

/-- Worker counting adjacent newline pairs; the flag records whether the
previous character was a newline. -/
def countNNGo : List Char → Bool → Nat
  | [], _ => 0
  | c :: rest, prevNl =>
    if c = '\n' then (if prevNl then 1 else 0) + countNNGo rest true
    else countNNGo rest false

/-- Adjacent newline-pair positions in a character list. -/
def countNN (l : List Char) : Nat :=
  countNNGo l false

/-- Whether the last character is a newline, with a default for the empty
list. -/
def endNl : List Char → Bool → Bool
  | [], b => b
  | c :: rest, _ => endNl rest (c == '\n')

/-- Number of adjacent newline-pair positions in a text; joining k units with
the double-newline separator creates at least k - 1 of them. -/
def nlPairs (s : String) : Nat :=
  countNN s.data

section Lemmas

/-- Folding with per-line appends from the empty accumulator is flatMap. -/
theorem foldl_append_eq_flatMap {α : Type} (f : α → List Flashcard) :
    ∀ (l : List α) (init : List Flashcard),
      l.foldl (fun out raw => out ++ f raw) init = init ++ l.flatMap f := by
  intro l
  induction l with
  | nil => intro init; simp
  | cons x xs ih =>
    intro init
    simp only [List.foldl_cons, List.flatMap_cons, ih, List.append_assoc]

/-- The separator loop of the source agrees with the find-first-listed
description. -/
theorem sepLoop_eq_find (line : String) :
    ∀ seps : List String,
      sepLoop seps line =
        match seps.find? (fun sep => pyIn sep line) with
        | some sep =>
          sepCard ⟨pyBeforeFirst sep.data line.data⟩
            ⟨pyAfterFirst sep.data line.data⟩
        | none => [] := by
  intro seps
  induction seps with
  | nil => simp [sepLoop]
  | cons sep more ih =>
    by_cases h : pyIn sep line = true
    · rw [sepLoop, if_pos h, List.find?_cons]
      simp only [h]
    · have h' : pyIn sep line = false := by simpa using h
      rw [sepLoop, if_neg h, List.find?_cons, ih]
      simp only [h']

end Lemmas

/-- Claim C2: the layered parser tries the five extractors in the fixed
priority order tab-separated, single-line labelled, two-line labelled,
numbered/bulleted, JSON list, returns exactly the result of the first
extractor yielding at least one card with no merging, and returns the empty
sequence when all five yield none. -/
theorem parse_any_priority (s : String) :
    (parseTsvLines s ≠ [] → robustParseAny s = parseTsvLines s) ∧
    (parseTsvLines s = [] → parseQAOneLine s ≠ [] →
      robustParseAny s = parseQAOneLine s) ∧
    (parseTsvLines s = [] → parseQAOneLine s = [] → parseQATwoLines s ≠ [] →
      robustParseAny s = parseQATwoLines s) ∧
    (parseTsvLines s = [] → parseQAOneLine s = [] → parseQATwoLines s = [] →
      parseNumberedPairs s ≠ [] → robustParseAny s = parseNumberedPairs s) ∧
    (parseTsvLines s = [] → parseQAOneLine s = [] → parseQATwoLines s = [] →
      parseNumberedPairs s = [] → parseJsonList s ≠ [] →
      robustParseAny s = parseJsonList s) ∧
    (parseTsvLines s = [] → parseQAOneLine s = [] → parseQATwoLines s = [] →
      parseNumberedPairs s = [] → parseJsonList s = [] →
      robustParseAny s = []) := by
  refine ⟨?_, ?_, ?_, ?_, ?_, ?_⟩ <;>
    intros <;>
    simp_all [robustParseAny, firstNonempty, List.isEmpty_iff]

/-- Witness for parse_any_priority at the empty input: all five extractors
yield no card and the parser returns the empty sequence. -/
theorem parse_any_priority_witness :
    parseTsvLines "" = [] ∧ parseQAOneLine "" = [] ∧ parseQATwoLines "" = [] ∧
    parseNumberedPairs "" = [] ∧ parseJsonList "" = [] ∧
    robustParseAny "" = [] :=
  ⟨by decide, by decide, by decide, by decide, by decide,
    (parse_any_priority "").2.2.2.2.2 (by decide) (by decide) (by decide)
      (by decide) (by decide)⟩

/-- Claim C3: the orchestrator consults the injected model capability at no
prompts other than the primary prompt and the single stricter retry prompt
(so at most two calls); a first response parsing to at least
max 1 (n_total / 2) cards is returned truncated with no second call; an
insufficient first response triggers exactly one retry with the strict
TSV-only suffix appended, whose parsed cards are returned truncated
regardless of count; and the result never exceeds n_total cards. -/
theorem turbo_two_calls (cm cm2 : String → String) (full : String) (n : Nat)
    (topics : Option (List String)) :
    (cm (turboPrompt full n topics) = cm2 (turboPrompt full n topics) →
      cm (turboPrompt full n topics ++ strictSuffix) =
        cm2 (turboPrompt full n topics ++ strictSuffix) →
      generate_flashcards_turbo cm full n topics =
        generate_flashcards_turbo cm2 full n topics) ∧
    (max 1 (n / 2) ≤ (robustParseAny (cm (turboPrompt full n topics))).length →
      generate_flashcards_turbo cm full n topics =
        (robustParseAny (cm (turboPrompt full n topics))).take n) ∧
    ((robustParseAny (cm (turboPrompt full n topics))).length < max 1 (n / 2) →
      generate_flashcards_turbo cm full n topics =
        (robustParseAny (cm (turboPrompt full n topics ++ strictSuffix))).take n) ∧
    (generate_flashcards_turbo cm full n topics).length ≤ n := by
  refine ⟨?_, ?_, ?_, ?_⟩
  · intro h1 h2
    simp only [generate_flashcards_turbo, h1, h2]
  · intro h
    simp only [generate_flashcards_turbo, if_pos h]
  · intro h
    simp only [generate_flashcards_turbo]
    rw [if_neg (by omega)]
  · simp only [generate_flashcards_turbo]
    split <;> exact List.length_take_le _ _

/-- Witness for turbo_two_calls with a constant model capability returning a
single TSV card at n_total 1: the first response suffices and is returned. -/
theorem turbo_two_calls_witness :
    max 1 (1 / 2) ≤
      (robustParseAny ((fun _ => "a\tb") (turboPrompt "x" 1 none))).length ∧
    generate_flashcards_turbo (fun _ => "a\tb") "x" 1 none =
      (robustParseAny ((fun _ => "a\tb") (turboPrompt "x" 1 none))).take 1 :=
  ⟨by decide, (turbo_two_calls (fun _ => "a\tb") (fun _ => "a\tb") "x" 1 none).2.1
    (by decide)⟩

/-- Claim C9: the two-line extractor consumes exactly two lines when the
current line matches the question-label regex and the next the answer-label
regex, and exactly one line otherwise; consequently a valid question line
followed by a non-matching line contributes no card, as on the concrete
input where the first question line is silently skipped. -/
theorem two_line_stepping :
    (∀ (fuel : Nat) (l1 l2 : String) (rest : List String),
      qMatch l1 = true → aMatch l2 = true →
      twoLoopF (fuel + 1) (l1 :: l2 :: rest) =
        twoLineCard l1 l2 ++ twoLoopF fuel rest) ∧
    (∀ (fuel : Nat) (l1 l2 : String) (rest : List String),
      ¬(qMatch l1 = true ∧ aMatch l2 = true) →
      twoLoopF (fuel + 1) (l1 :: l2 :: rest) = twoLoopF fuel (l2 :: rest)) ∧
    parseQATwoLines "Q: one\nnope\nQ: two\nA: 2" = [⟨"two", "2", 0⟩] := by
  refine ⟨?_, ?_, by decide⟩
  · intro fuel l1 l2 rest h1 h2
    simp [twoLoopF, h1, h2]
  · intro fuel l1 l2 rest h
    have hb : (qMatch l1 && aMatch l2) = false := by
      cases hq : qMatch l1 <;> cases ha : aMatch l2 <;> simp_all
    simp [twoLoopF, hb]

/-- Witness for two_line_stepping on a matching pair of labelled lines. -/
theorem two_line_stepping_witness :
    qMatch "Q: a" = true ∧ aMatch "A: b" = true ∧
    twoLoopF 1 ["Q: a", "A: b"] = twoLineCard "Q: a" "A: b" ++ twoLoopF 0 [] :=
  ⟨by decide, by decide,
    two_line_stepping.1 0 "Q: a" "A: b" [] (by decide) (by decide)⟩

section SplitlinesLemmas

/-- One step of the splitlines worker on a non-break character. -/
theorem pySplitlinesGo_cons_noLB (c : Char) (rest acc : List Char)
    (hc : isLineBreak c = false) :
    pySplitlinesGo (c :: rest) acc false = pySplitlinesGo rest (c :: acc) false := by
  have hcr : ¬(c = '\r') := by
    intro e
    rw [e] at hc
    exact absurd hc (by decide)
  rw [pySplitlinesGo, if_neg (by simp), if_neg hcr, if_neg (by simp [hc])]

/-- Splitlines of a text without line breaks is that text as the single
line continuing the accumulator, and nothing at all when both are empty. -/
theorem pySplitlinesGo_noLB :
    ∀ (cs acc : List Char), (∀ c ∈ cs, isLineBreak c = false) →
      pySplitlinesGo cs acc false =
        if acc = [] ∧ cs = [] then [] else [⟨acc.reverse ++ cs⟩] := by
  intro cs
  induction cs with
  | nil =>
    intro acc _
    cases acc <;> simp [pySplitlinesGo]
  | cons c rest ih =>
    intro acc h
    have hc : isLineBreak c = false := h c (by simp)
    rw [pySplitlinesGo_cons_noLB c rest acc hc,
      ih (c :: acc) (fun d hd => h d (by simp [hd]))]
    simp

/-- Rebuilding a string from its own character data is the identity. -/
theorem string_mk_data (s : String) : String.mk s.data = s :=
  rfl

/-- The splitlines worker emits a full break-free line at a newline. -/
theorem splitlines_cons_line (rest : List Char) :
    ∀ (ld acc : List Char), (∀ c ∈ ld, isLineBreak c = false) →
      pySplitlinesGo (ld ++ '\n' :: rest) acc false =
        ⟨acc.reverse ++ ld⟩ :: pySplitlinesGo rest [] false := by
  intro ld
  induction ld with
  | nil =>
    intro acc _
    rw [List.nil_append, pySplitlinesGo, if_neg (by simp), if_neg (by decide),
      if_pos (by decide)]
    simp
  | cons c t ih =>
    intro acc h
    have hc : isLineBreak c = false := h c (by simp)
    rw [List.cons_append, pySplitlinesGo_cons_noLB c _ acc hc,
      ih (c :: acc) (fun d hd => h d (by simp [hd]))]
    have hre : (c :: acc).reverse ++ t = acc.reverse ++ c :: t := by simp
    rw [hre]

/-- Splitlines of a break-free string: empty for the empty string and the
one-element list otherwise. -/
theorem pySplitlines_noLB (s : String) (h : noLineBreaks s) :
    pySplitlines s = if s = "" then [] else [s] := by
  unfold pySplitlines
  rw [pySplitlinesGo_noLB s.data [] h]
  cases s with
  | mk data =>
    cases data with
    | nil => simp [show (⟨[]⟩ : String) = "" from rfl]
    | cons c cs =>
      rw [if_neg (by simp), if_neg ?_]
      · simp
      · intro e
        have hd : c :: cs = ([] : List Char) := congrArg String.data e
        simp at hd

end SplitlinesLemmas

/-- Claim C10: the single-line labelled extractor matches the question label
case-insensitively but requires the answer delimiter as the case-sensitive
substring " A:" or " Answer:"; a break-free line containing neither
delimiter, such as one with a lower-case answer label, produces no card,
while a lower-case question label with " A:" does produce a card and a line
with a repeated delimiter splits at its first occurrence. -/
theorem one_line_case_sensitivity :
    (∀ s : String, noLineBreaks s →
      pyIn " A:" (pyStrip s) = false → pyIn " Answer:" (pyStrip s) = false →
      parseQAOneLine s = []) ∧
    parseQAOneLine "q: foo A: bar" = [⟨"foo", "bar", 0⟩] ∧
    parseQAOneLine "Q: x A: y A: z" = [⟨"x", "y A: z", 0⟩] := by
  refine ⟨?_, by decide, by decide⟩
  intro s hnb h1 h2
  unfold parseQAOneLine
  rw [pySplitlines_noLB s hnb]
  by_cases hs : s = ""
  · simp [hs]
  · rw [if_neg hs]
    simp only [List.foldl_cons, List.foldl_nil, List.nil_append]
    unfold oneLineCards
    by_cases hE : pyStrip s = ""
    · simp [hE]
    · rw [if_neg hE]
      simp [h1, h2]

/-- Witness for one_line_case_sensitivity at the lower-case answer label. -/
theorem one_line_case_sensitivity_witness :
    noLineBreaks "q: foo a: bar" ∧
    pyIn " A:" (pyStrip "q: foo a: bar") = false ∧
    pyIn " Answer:" (pyStrip "q: foo a: bar") = false ∧
    parseQAOneLine "q: foo a: bar" = [] :=
  ⟨by decide, by decide, by decide,
    one_line_case_sensitivity.1 "q: foo a: bar" (by decide) (by decide)
      (by decide)⟩

/-- Counterexample to claim C8 as stated: on the line a : b - c the colon
separator occurs first in the line, so a split at the first occurrence of
one of the separators would give question a and answer b - c; the extractor
instead splits at the dash, the earliest separator in the fixed list order. -/
theorem numbered_leftmost_counterexample :
    parseNumberedPairs "a : b - c" = [⟨"a : b", "c", 0⟩] ∧
    parseNumberedPairs "a : b - c" ≠ [⟨"a", "b - c", 0⟩] :=
  ⟨by decide, by decide⟩

/-- Pointwise agreement of the per-line body of the numbered extractor with
the find-first-listed-separator description. -/
theorem numberedLine_eq_spec (raw : String) :
    numberedLine raw = numberedLineSpec raw := by
  unfold numberedLine numberedLineSpec
  by_cases h : pyStrip raw = ""
  · simp [h]
  · rw [if_neg h, if_neg h, sepLoop_eq_find]

section StripLemmas

/-- Dropping a satisfied run never lengthens a list. -/
theorem length_dropWhile_le (p : Char → Bool) :
    ∀ cs : List Char, (cs.dropWhile p).length ≤ cs.length := by
  intro cs
  induction cs with
  | nil => simp
  | cons c t ih =>
    rw [List.dropWhile_cons]
    by_cases hp : p c = true
    · rw [if_pos hp]
      exact le_trans ih (by simp)
    · rw [if_neg hp]

/-- A dropWhile preserving the length drops nothing. -/
theorem dropWhile_eq_self_of_length (p : Char → Bool) :
    ∀ cs : List Char, (cs.dropWhile p).length = cs.length → cs.dropWhile p = cs := by
  intro cs
  induction cs with
  | nil => simp
  | cons c t _ =>
    intro h
    by_cases hp : p c = true
    · exfalso
      rw [List.dropWhile_cons, if_pos hp] at h
      have h1 := length_dropWhile_le p t
      simp at h
      omega
    · rw [List.dropWhile_cons, if_neg hp]

/-- The head of a cons untouched by dropWhile fails the predicate. -/
theorem head_false_of_dropWhile_eq (p : Char → Bool) (c : Char) (t : List Char)
    (h : (c :: t).dropWhile p = c :: t) : p c = false := by
  by_cases hp : p c = true
  · exfalso
    rw [List.dropWhile_cons, if_pos hp] at h
    have h1 := length_dropWhile_le p t
    have h2 := congrArg List.length h
    simp at h2
    omega
  · simpa using hp

/-- dropWhile is idempotent. -/
theorem dropWhile_idem (p : Char → Bool) (cs : List Char) :
    (cs.dropWhile p).dropWhile p = cs.dropWhile p := by
  induction cs with
  | nil => simp
  | cons c t ih =>
    by_cases hp : p c = true
    · rw [List.dropWhile_cons, if_pos hp]
      exact ih
    · rw [List.dropWhile_cons, if_neg hp, List.dropWhile_cons, if_neg hp]

/-- An untouched non-empty dropWhile stays untouched over an appended tail. -/
theorem dropWhile_append_of_eq (p : Char → Bool) (c : Char) (t ys : List Char)
    (h : (c :: t).dropWhile p = c :: t) :
    ((c :: t) ++ ys).dropWhile p = (c :: t) ++ ys := by
  have hp := head_false_of_dropWhile_eq p c t h
  rw [List.cons_append, List.dropWhile_cons, if_neg (by simp [hp])]

/-- A stripped list is untouched by both one-sided trims. -/
theorem strip_fix_parts (cs : List Char) (h : stripList cs = cs) :
    cs.dropWhile pyWs = cs ∧ cs.reverse.dropWhile pyWs = cs.reverse := by
  unfold stripList at h
  have hlen := congrArg List.length h
  have l1 := length_dropWhile_le pyWs cs
  have l2 := length_dropWhile_le pyWs (cs.dropWhile pyWs).reverse
  simp only [List.length_reverse] at hlen l2
  have hu : cs.dropWhile pyWs = cs :=
    dropWhile_eq_self_of_length pyWs cs (by omega)
  rw [hu] at h
  refine ⟨hu, ?_⟩
  have := congrArg List.reverse h
  rw [List.reverse_reverse] at this
  exact this

/-- stripList is idempotent. -/
theorem stripList_idem (cs : List Char) :
    stripList (stripList cs) = stripList cs := by
  unfold stripList
  set u := cs.dropWhile pyWs with hu
  set v := u.reverse.dropWhile pyWs with hv
  have hvv : v.dropWhile pyWs = v := by rw [hv]; exact dropWhile_idem pyWs u.reverse
  have hdecomp : u.reverse = u.reverse.takeWhile pyWs ++ v := by
    rw [hv]; exact (List.takeWhile_append_dropWhile pyWs u.reverse).symm
  have hufull : u = v.reverse ++ (u.reverse.takeWhile pyWs).reverse := by
    have := congrArg List.reverse hdecomp
    rw [List.reverse_reverse, List.reverse_append] at this
    exact this
  have hstep1 : v.reverse.dropWhile pyWs = v.reverse := by
    cases hcase : v.reverse with
    | nil => simp
    | cons c t =>
      have huc : u.dropWhile pyWs = u := by rw [hu]; exact dropWhile_idem pyWs cs
      rw [hcase] at hufull
      rw [List.cons_append] at hufull
      have hpc : pyWs c = false := by
        apply head_false_of_dropWhile_eq pyWs c (t ++ (u.reverse.takeWhile pyWs).reverse)
        rw [← hufull]
        exact huc
      rw [List.dropWhile_cons, if_neg (by simp [hpc])]
  rw [hstep1, List.reverse_reverse, hvv]

/-- Membership survives dropWhile backwards. -/
theorem mem_of_mem_dropWhile (p : Char → Bool) :
    ∀ {cs : List Char} {c : Char}, c ∈ cs.dropWhile p → c ∈ cs := by
  intro cs
  induction cs with
  | nil =>
    intro c h
    simp at h
  | cons d t ih =>
    intro c h
    by_cases hp : p d = true
    · rw [List.dropWhile_cons, if_pos hp] at h
      exact List.mem_cons_of_mem d (ih h)
    · rw [List.dropWhile_cons, if_neg hp] at h
      exact h

/-- Membership in a stripped list implies membership in the original. -/
theorem mem_of_mem_stripList {cs : List Char} {c : Char}
    (h : c ∈ stripList cs) : c ∈ cs := by
  unfold stripList at h
  rw [List.mem_reverse] at h
  have h2 := mem_of_mem_dropWhile pyWs h
  rw [List.mem_reverse] at h2
  exact mem_of_mem_dropWhile pyWs h2

/-- Every whitespace character surviving the collapse pass is a space. -/
theorem collapse_mem_sp :
    ∀ (cs : List Char) (b : Bool) (c : Char),
      c ∈ collapseWsGo cs b → pyWs c = true → c = ' ' := by
  intro cs
  induction cs with
  | nil => intro b c h; simp [collapseWsGo] at h
  | cons d t ih =>
    intro b c h hw
    by_cases hd : pyWs d = true
    · rw [collapseWsGo, if_pos hd] at h
      by_cases hb : b = true
      · rw [if_pos hb] at h
        exact ih true c h hw
      · rw [if_neg hb] at h
        rcases List.mem_cons.mp h with h1 | h1
        · exact h1
        · exact ih true c h1 hw
    · rw [collapseWsGo, if_neg hd] at h
      rcases List.mem_cons.mp h with h1 | h1
      · rw [h1] at hw
        exact absurd hw (by simp [hd])
      · exact ih false c h1 hw

/-- In a clean-invariant string every whitespace character is a space. -/
theorem clean_ws_sp (s : String) (h : cleanPiece s = s) :
    ∀ c ∈ s.data, pyWs c = true → c = ' ' := by
  intro c hc hw
  have hd : s.data = (cleanPiece s).data := by rw [h]
  rw [hd] at hc
  exact collapse_mem_sp _ false c (mem_of_mem_stripList hc) hw

/-- A clean-invariant string contains no tab. -/
theorem clean_no_tab (s : String) (h : cleanPiece s = s) : '\t' ∉ s.data := by
  intro hmem
  have := clean_ws_sp s h '\t' hmem (by decide)
  exact absurd this (by decide)

/-- Every line-break character counts as Python whitespace. -/
theorem lb_imp_ws (c : Char) (h : isLineBreak c = true) : pyWs c = true := by
  simp only [isLineBreak, Bool.or_eq_true, Bool.and_eq_true, decide_eq_true_eq,
    beq_iff_eq] at h
  simp only [pyWs, Bool.or_eq_true, Bool.and_eq_true, decide_eq_true_eq,
    beq_iff_eq]
  omega

/-- A clean-invariant string contains no line break. -/
theorem clean_no_lb (s : String) (h : cleanPiece s = s) :
    ∀ c ∈ s.data, isLineBreak c = false := by
  intro c hc
  by_cases hl : isLineBreak c = true
  · have hsp := clean_ws_sp s h c hc (lb_imp_ws c hl)
    rw [hsp] at hl
    exact absurd hl (by decide)
  · simpa using hl

/-- A non-empty string has non-empty character data. -/
theorem good_data_ne (s : String) (h : s ≠ "") : s.data ≠ [] := by
  intro e
  apply h
  cases s with
  | mk d =>
    cases e
    rfl

/-- A clean-invariant string is strip-invariant. -/
theorem goodPiece_strip_fix (s : String) (h : cleanPiece s = s) :
    stripList s.data = s.data := by
  have hthis : s.data =
      stripList (collapseWs (stripA (stripQ (stripNum (stripList s.data))))) :=
    congrArg String.data h.symm
  rw [hthis]
  exact stripList_idem _

/-- Stripping a TSV line of two strip-invariant non-empty pieces changes
nothing. -/
theorem strip_line_fix (qd ad : List Char) (hq : stripList qd = qd)
    (ha : stripList ad = ad) (hqne : qd ≠ []) (hane : ad ≠ []) :
    stripList (qd ++ '\t' :: ad) = qd ++ '\t' :: ad := by
  obtain ⟨hq1, _⟩ := strip_fix_parts qd hq
  obtain ⟨_, ha2⟩ := strip_fix_parts ad ha
  unfold stripList
  have hfront : (qd ++ '\t' :: ad).dropWhile pyWs = qd ++ '\t' :: ad := by
    cases hqd : qd with
    | nil => exact absurd hqd hqne
    | cons c t =>
      rw [hqd] at hq1
      exact dropWhile_append_of_eq pyWs c t ('\t' :: ad) hq1
  rw [hfront]
  have hrev : (qd ++ '\t' :: ad).reverse = ad.reverse ++ '\t' :: qd.reverse := by
    simp
  rw [hrev]
  have hback : (ad.reverse ++ '\t' :: qd.reverse).dropWhile pyWs =
      ad.reverse ++ '\t' :: qd.reverse := by
    cases had : ad.reverse with
    | nil =>
      exfalso
      apply hane
      have := congrArg List.reverse had
      simpa using this
    | cons c t =>
      rw [had] at ha2
      exact dropWhile_append_of_eq pyWs c t ('\t' :: qd.reverse) ha2
  rw [hback, ← hrev, List.reverse_reverse]

/-- Splitting at the first tab of a line whose question part is tab-free. -/
theorem splitFirstL_tab (ad : List Char) :
    ∀ qd : List Char, '\t' ∉ qd →
      splitFirstL ['\t'] (qd ++ '\t' :: ad) = some (qd, ad) := by
  intro qd
  induction qd with
  | nil =>
    intro _
    simp [splitFirstL, List.isPrefixOf]
  | cons c t ih =>
    intro h
    have hct : ¬(['\t'].isPrefixOf (c :: (t ++ '\t' :: ad)) = true) := by
      simp only [List.isPrefixOf, Bool.and_eq_true, beq_iff_eq]
      intro e
      exact h (by simp [e.1.symm])
    rw [List.cons_append, splitFirstL, if_neg hct,
      ih (fun hm => h (List.mem_cons_of_mem c hm))]

end StripLemmas

section TsvRoundTrip

/-- The per-line tab-separated extractor recovers a good question and answer
pair verbatim. -/
theorem tsvLine_pair (q a : String) (hq : goodPiece q) (ha : goodPiece a) :
    tsvLine (q ++ "\t" ++ a) = [⟨q, a, 0⟩] := by
  obtain ⟨hqne, hqc⟩ := hq
  obtain ⟨hane, hac⟩ := ha
  have hdata : (q ++ "\t" ++ a).data = q.data ++ '\t' :: a.data := by
    rw [String.data_append, String.data_append]
    simp [show ("\t" : String).data = ['\t'] from rfl]
  have hstrip : pyStrip (q ++ "\t" ++ a) = q ++ "\t" ++ a := by
    unfold pyStrip
    rw [hdata, strip_line_fix q.data a.data (goodPiece_strip_fix q hqc)
      (goodPiece_strip_fix a hac) (good_data_ne q hqne) (good_data_ne a hane),
      ← hdata]
  have hne2 : ¬(q ++ "\t" ++ a) = "" := by
    intro e
    have hE := congrArg String.data e
    rw [hdata] at hE
    simp at hE
  simp only [tsvLine, hstrip]
  rw [if_neg hne2, hdata, splitFirstL_tab a.data q.data (clean_no_tab q hqc)]
  simp only [string_mk_data, hqc, hac]
  rw [if_pos ⟨hqne, hane⟩]

/-- A line whose characters are all clean is break-free. -/
theorem line_no_lb (q a : String) (hqc : cleanPiece q = q) (hac : cleanPiece a = a) :
    ∀ c ∈ q.data ++ '\t' :: a.data, isLineBreak c = false := by
  intro c hc
  rcases List.mem_append.mp hc with h1 | h1
  · exact clean_no_lb q hqc c h1
  · rcases List.mem_cons.mp h1 with h2 | h2
    · rw [h2]; decide
    · exact clean_no_lb a hac c h2

/-- Claim C7: parsing the exact five-line TSV rendering of five cards with
normalized non-empty fields returns exactly those five cards in order. -/
theorem tsv_round_trip (q1 a1 q2 a2 q3 a3 q4 a4 q5 a5 : String)
    (h1 : goodPiece q1) (h2 : goodPiece a1) (h3 : goodPiece q2)
    (h4 : goodPiece a2) (h5 : goodPiece q3) (h6 : goodPiece a3)
    (h7 : goodPiece q4) (h8 : goodPiece a4) (h9 : goodPiece q5)
    (h10 : goodPiece a5) :
    robustParseAny (q1 ++ "\t" ++ a1 ++ "\n" ++ q2 ++ "\t" ++ a2 ++ "\n" ++
        q3 ++ "\t" ++ a3 ++ "\n" ++ q4 ++ "\t" ++ a4 ++ "\n" ++ q5 ++ "\t" ++ a5) =
      [⟨q1, a1, 0⟩, ⟨q2, a2, 0⟩, ⟨q3, a3, 0⟩, ⟨q4, a4, 0⟩, ⟨q5, a5, 0⟩] := by
  set text := q1 ++ "\t" ++ a1 ++ "\n" ++ q2 ++ "\t" ++ a2 ++ "\n" ++
    q3 ++ "\t" ++ a3 ++ "\n" ++ q4 ++ "\t" ++ a4 ++ "\n" ++ q5 ++ "\t" ++ a5
    with htext
  have hdata : text.data =
      (q1.data ++ '\t' :: a1.data) ++ '\n' ::
        ((q2.data ++ '\t' :: a2.data) ++ '\n' ::
          ((q3.data ++ '\t' :: a3.data) ++ '\n' ::
            ((q4.data ++ '\t' :: a4.data) ++ '\n' ::
              (q5.data ++ '\t' :: a5.data)))) := by
    rw [htext]
    simp [String.data_append, show ("\t" : String).data = ['\t'] from rfl,
      show ("\n" : String).data = ['\n'] from rfl]
  have hlines : pySplitlines text =
      [q1 ++ "\t" ++ a1, q2 ++ "\t" ++ a2, q3 ++ "\t" ++ a3,
        q4 ++ "\t" ++ a4, q5 ++ "\t" ++ a5] := by
    have hld : ∀ (q a : String), (q ++ "\t" ++ a).data = q.data ++ '\t' :: a.data := by
      intro q a
      rw [String.data_append, String.data_append]
      simp [show ("\t" : String).data = ['\t'] from rfl]
    unfold pySplitlines
    rw [hdata]
    rw [splitlines_cons_line _ _ _ (line_no_lb q1 a1 h1.2 h2.2)]
    rw [splitlines_cons_line _ _ _ (line_no_lb q2 a2 h3.2 h4.2)]
    rw [splitlines_cons_line _ _ _ (line_no_lb q3 a3 h5.2 h6.2)]
    rw [splitlines_cons_line _ _ _ (line_no_lb q4 a4 h7.2 h8.2)]
    have hc5 : ¬(([] : List Char) = [] ∧ q5.data ++ '\t' :: a5.data = []) := by
      rintro ⟨-, h5⟩
      simp at h5
    rw [pySplitlinesGo_noLB _ _ (line_no_lb q5 a5 h9.2 h10.2), if_neg hc5]
    simp only [List.nil_append, List.reverse_nil, ← hld, string_mk_data]
  have hparse : parseTsvLines text =
      [⟨q1, a1, 0⟩, ⟨q2, a2, 0⟩, ⟨q3, a3, 0⟩, ⟨q4, a4, 0⟩, ⟨q5, a5, 0⟩] := by
    unfold parseTsvLines
    rw [hlines, foldl_append_eq_flatMap]
    simp only [List.flatMap_cons, List.flatMap_nil, List.nil_append,
      tsvLine_pair q1 a1 h1 h2, tsvLine_pair q2 a2 h3 h4,
      tsvLine_pair q3 a3 h5 h6, tsvLine_pair q4 a4 h7 h8,
      tsvLine_pair q5 a5 h9 h10]
    simp
  unfold robustParseAny
  rw [hparse]
  rw [firstNonempty, if_neg (by simp)]

end TsvRoundTrip

/-- Witness for tsv_round_trip at the five-card example of the spec. -/
theorem tsv_round_trip_witness :
    goodPiece "What is X?" ∧ goodPiece "X is Y." ∧ goodPiece "What is A?" ∧
    goodPiece "A is B." ∧
    robustParseAny ("What is X?" ++ "\t" ++ "X is Y." ++ "\n" ++
        "What is A?" ++ "\t" ++ "A is B." ++ "\n" ++ "Q3?" ++ "\t" ++ "A3." ++
        "\n" ++ "Q4?" ++ "\t" ++ "A4." ++ "\n" ++ "Q5?" ++ "\t" ++ "A5.") =
      [⟨"What is X?", "X is Y.", 0⟩, ⟨"What is A?", "A is B.", 0⟩,
        ⟨"Q3?", "A3.", 0⟩, ⟨"Q4?", "A4.", 0⟩, ⟨"Q5?", "A5.", 0⟩] :=
  ⟨⟨by decide, by decide⟩, ⟨by decide, by decide⟩, ⟨by decide, by decide⟩,
    ⟨by decide, by decide⟩,
    tsv_round_trip "What is X?" "X is Y." "What is A?" "A is B." "Q3?" "A3."
      "Q4?" "A4." "Q5?" "A5." ⟨by decide, by decide⟩ ⟨by decide, by decide⟩
      ⟨by decide, by decide⟩ ⟨by decide, by decide⟩ ⟨by decide, by decide⟩
      ⟨by decide, by decide⟩ ⟨by decide, by decide⟩ ⟨by decide, by decide⟩
      ⟨by decide, by decide⟩ ⟨by decide, by decide⟩⟩

/-- Claim C8, amended: every line is stripped of leading numbering markup
and split at the first occurrence of the FIRST separator in the fixed list
order dash, em-dash, colon, en-dash that occurs in the line (not at the
leftmost occurrence among all separators); both sides are cleaned with the
shared cleaning step plus a redundant-label re-strip and a card is produced
only when both sides are non-empty; the Photosynthesis scenario holds. -/
theorem numbered_pairs_amended :
    (∀ s : String,
      parseNumberedPairs s = (pySplitlines s).flatMap numberedLineSpec) ∧
    robustParseAny "1) Photosynthesis - converts light to energy" =
      [⟨"Photosynthesis", "converts light to energy", 0⟩] := by
  refine ⟨?_, by decide⟩
  intro s
  unfold parseNumberedPairs
  rw [foldl_append_eq_flatMap numberedLine (pySplitlines s) []]
  rw [funext numberedLine_eq_spec]
  simp

section ExceptAgreement

/-- Binding a successful Except value applies the continuation. -/
theorem except_bind_ok {α β : Type} (x : α) (f : α → Except PyErr β) :
    (Except.ok x >>= f) = f x :=
  rfl

/-- pure on Except is ok. -/
theorem except_pure_def {α : Type} (x : α) :
    (pure x : Except PyErr α) = .ok x :=
  rfl

/-- A successful first-occurrence split decomposes the list. -/
theorem splitFirstL_decomp (sep : List Char) :
    ∀ (cs pre post : List Char), splitFirstL sep cs = some (pre, post) →
      cs = pre ++ sep ++ post := by
  intro cs
  induction cs with
  | nil =>
    intro pre post h
    unfold splitFirstL at h
    by_cases hs : sep.isEmpty
    · rw [if_pos hs] at h
      have hsep : sep = [] := by simpa [List.isEmpty_iff] using hs
      simp only [Option.some.injEq, Prod.mk.injEq] at h
      obtain ⟨h1, h2⟩ := h
      subst h1
      subst h2
      rw [hsep]
      rfl
    · rw [if_neg hs] at h
      exact absurd h (by simp)
  | cons c rest ih =>
    intro pre post h
    rw [splitFirstL] at h
    by_cases hp : sep.isPrefixOf (c :: rest) = true
    · rw [if_pos hp] at h
      obtain ⟨t, ht⟩ := List.isPrefixOf_iff_prefix.mp hp
      simp only [Option.some.injEq, Prod.mk.injEq] at h
      obtain ⟨h1, h2⟩ := h
      subst h1
      subst h2
      rw [← ht, List.drop_left]
      simp
    · rw [if_neg hp] at h
      cases hr : splitFirstL sep rest with
      | none =>
        rw [hr] at h
        exact absurd h (by simp)
      | some pr =>
        obtain ⟨p2, post2⟩ := pr
        rw [hr] at h
        simp only [Option.some.injEq, Prod.mk.injEq] at h
        obtain ⟨h1, h2⟩ := h
        subst h1
        subst h2
        rw [ih p2 post2 hr]
        simp

/-- A single-character separator that occurs somewhere is found. -/
theorem splitFirstL_isSome_of_mem (c0 : Char) :
    ∀ cs : List Char, c0 ∈ cs → (splitFirstL [c0] cs).isSome = true := by
  intro cs
  induction cs with
  | nil =>
    intro h
    simp at h
  | cons c rest ih =>
    intro h
    rw [splitFirstL]
    by_cases hp : [c0].isPrefixOf (c :: rest) = true
    · rw [if_pos hp]
      rfl
    · rw [if_neg hp]
      have hc : c0 ≠ c := by
        intro e
        exact hp (by simp [List.isPrefixOf, e])
      have hm : c0 ∈ rest := by
        rcases List.mem_cons.mp h with h1 | h1
        · exact absurd h1 hc
        · exact h1
      have hs := ih hm
      cases hr : splitFirstL [c0] rest with
      | none =>
        rw [hr] at hs
        simp at hs
      | some pr =>
        obtain ⟨p, q⟩ := pr
        rfl

/-- Index 0 of a Python maxsplit-1 split always exists and is the text
before the first occurrence. -/
theorem pySplitPy_idx0 (s sep : String) :
    pyIdxE (pySplitPy s sep) 0 = .ok ⟨pyBeforeFirst sep.data s.data⟩ := by
  unfold pySplitPy pyBeforeFirst pyIdxE
  cases h : splitFirstL sep.data s.data with
  | none => simp
  | some pr =>
    obtain ⟨pre, post⟩ := pr
    simp

/-- Index 1 of a successful Python maxsplit-1 split is the text after the
first occurrence. -/
theorem pySplitPy_idx1 (s sep : String) (pre post : List Char)
    (h : splitFirstL sep.data s.data = some (pre, post)) :
    pyIdxE (pySplitPy s sep) 1 = .ok ⟨post⟩ ∧
      pyAfterFirst sep.data s.data = post := by
  unfold pySplitPy pyAfterFirst pyIdxE
  rw [h]
  simp

/-- A successful split makes the unpacked Python split a two-element list. -/
theorem unpack2_pySplitPy (s sep : String) (pre post : List Char)
    (h : splitFirstL sep.data s.data = some (pre, post)) :
    unpack2 (pySplitPy s sep) = .ok (⟨pre⟩, ⟨post⟩) := by
  unfold pySplitPy unpack2
  rw [h]

/-- The exception-aware tab-separated line body never raises and agrees
with the pure body. -/
theorem tsvLineE_ok (raw : String) : tsvLineE raw = .ok (tsvLine raw) := by
  have htd : ("\t" : String).data = ['\t'] := rfl
  by_cases hE : pyStrip raw = ""
  · simp [tsvLineE, tsvLine, hE, except_pure_def]
  · cases hsp : splitFirstL ['\t'] (pyStrip raw).data with
    | none =>
      simp [tsvLineE, tsvLine, hE, pyIn, htd, hsp, except_pure_def]
    | some pr =>
      obtain ⟨pre, post⟩ := pr
      have hu := unpack2_pySplitPy (pyStrip raw) "\t" pre post (by rw [htd]; exact hsp)
      simp [tsvLineE, tsvLine, hE, pyIn, htd, hsp, hu, except_bind_ok,
        except_pure_def]
      split <;> rfl

/-- The line loop with exceptions agrees with the pure fold when the body
never raises. -/
theorem foldLinesE_ok (g : String → Except PyErr (List Flashcard))
    (f : String → List Flashcard) (hgf : ∀ raw, g raw = .ok (f raw)) :
    ∀ (l : List String) (out : List Flashcard),
      foldLinesE g l out = .ok (l.foldl (fun o r => o ++ f r) out) := by
  intro l
  induction l with
  | nil =>
    intro out
    rfl
  | cons raw rest ih =>
    intro out
    rw [foldLinesE, hgf raw, List.foldl_cons]
    exact ih (out ++ f raw)

/-- The exception-aware single-line body never raises and agrees with the
pure body: whenever a branch guard holds, the guarded indexing succeeds. -/
theorem oneLineCardsE_ok (raw : String) :
    oneLineCardsE raw = .ok (oneLineCards raw) := by
  have hAd : (" A:" : String).data = [' ', 'A', ':'] := rfl
  have hAnsd : (" Answer:" : String).data =
    [' ', 'A', 'n', 's', 'w', 'e', 'r', ':'] := rfl
  have hCd : (":" : String).data = [':'] := rfl
  by_cases hE : pyStrip raw = ""
  · simp [oneLineCardsE, oneLineCards, hE, except_pure_def]
  · by_cases hg1 : (pyIn " A:" (pyStrip raw) &&
        lowerStarts (pyStrip raw) ['q', ':']) = true
    · have hin : pyIn " A:" (pyStrip raw) = true := by
        have hh := hg1
        simp only [Bool.and_eq_true] at hh
        exact hh.1
      unfold pyIn at hin
      rw [hAd] at hin
      cases hsp : splitFirstL [' ', 'A', ':'] (pyStrip raw).data with
      | none =>
        rw [hsp] at hin
        simp at hin
      | some pr =>
        obtain ⟨pre, post⟩ := pr
        have hdec := splitFirstL_decomp _ _ _ _ hsp
        have hcolon : ':' ∈ (pyStrip raw).data := by
          rw [hdec]
          simp
        have hsome := splitFirstL_isSome_of_mem ':' (pyStrip raw).data hcolon
        cases hsp2 : splitFirstL [':'] (pyStrip raw).data with
        | none =>
          rw [hsp2] at hsome
          simp at hsome
        | some pr2 =>
          obtain ⟨pre2, post2⟩ := pr2
          have i1 := pySplitPy_idx1 (pyStrip raw) ":" pre2 post2 (by rw [hCd]; exact hsp2)
          have i1a : pyAfterFirst [':'] (pyStrip raw).data = post2 := by
            have := i1.2
            rwa [hCd] at this
          have i2 := pySplitPy_idx0 (⟨post2⟩ : String) " A:"
          have i2a : pyIdxE (pySplitPy (⟨post2⟩ : String) " A:") 0 =
              .ok ⟨pyBeforeFirst [' ', 'A', ':'] post2⟩ := by
            rwa [hAd] at i2
          have i3 := pySplitPy_idx1 (pyStrip raw) " A:" pre post (by rw [hAd]; exact hsp)
          have i3a : pyAfterFirst [' ', 'A', ':'] (pyStrip raw).data = post := by
            have := i3.2
            rwa [hAd] at this
          have hTry : oneLineTryA (pyStrip raw) =
              .ok (if cleanPiece (⟨pyBeforeFirst [' ', 'A', ':'] post2⟩ : String) ≠ "" ∧
                    cleanPiece (⟨post⟩ : String) ≠ "" then
                  [⟨cleanPiece ⟨pyBeforeFirst [' ', 'A', ':'] post2⟩,
                    cleanPiece ⟨post⟩, 0⟩]
                else []) := by
            simp only [oneLineTryA, i1.1, i2a, i3.1]
            split <;> rfl
          simp only [oneLineCardsE, oneLineCards, hE, hg1, if_false, if_true,
            hTry, hAd, hCd, i1a, i3a]
    · by_cases hg2 : (pyIn " Answer:" (pyStrip raw) &&
          (lowerStarts (pyStrip raw) ['q', ':'] ||
            lowerStarts (pyStrip raw) ['q', 'u', 'e', 's', 't', 'i', 'o', 'n', ':'])) = true
      · have hin : pyIn " Answer:" (pyStrip raw) = true := by
          have hh := hg2
          simp only [Bool.and_eq_true] at hh
          exact hh.1
        unfold pyIn at hin
        rw [hAnsd] at hin
        cases hsp : splitFirstL [' ', 'A', 'n', 's', 'w', 'e', 'r', ':']
            (pyStrip raw).data with
        | none =>
          rw [hsp] at hin
          simp at hin
        | some pr =>
          obtain ⟨pre, post⟩ := pr
          have hdec := splitFirstL_decomp _ _ _ _ hsp
          have hcolon : ':' ∈ (pyStrip raw).data := by
            rw [hdec]
            simp
          have hsome := splitFirstL_isSome_of_mem ':' (pyStrip raw).data hcolon
          cases hsp2 : splitFirstL [':'] (pyStrip raw).data with
          | none =>
            rw [hsp2] at hsome
            simp at hsome
          | some pr2 =>
            obtain ⟨pre2, post2⟩ := pr2
            have i1 := pySplitPy_idx1 (pyStrip raw) ":" pre2 post2 (by rw [hCd]; exact hsp2)
            have i1a : pyAfterFirst [':'] (pyStrip raw).data = post2 := by
              have := i1.2
              rwa [hCd] at this
            have i2 := pySplitPy_idx0 (⟨post2⟩ : String) " Answer:"
            have i2a : pyIdxE (pySplitPy (⟨post2⟩ : String) " Answer:") 0 =
                .ok ⟨pyBeforeFirst [' ', 'A', 'n', 's', 'w', 'e', 'r', ':'] post2⟩ := by
              rwa [hAnsd] at i2
            have i3 := pySplitPy_idx1 (pyStrip raw) " Answer:" pre post
              (by rw [hAnsd]; exact hsp)
            have i3a : pyAfterFirst [' ', 'A', 'n', 's', 'w', 'e', 'r', ':']
                (pyStrip raw).data = post := by
              have := i3.2
              rwa [hAnsd] at this
            have hTry : oneLineTryAnswer (pyStrip raw) =
                .ok (if cleanPiece (⟨pyBeforeFirst [' ', 'A', 'n', 's', 'w', 'e', 'r', ':']
                        post2⟩ : String) ≠ "" ∧
                      cleanPiece (⟨post⟩ : String) ≠ "" then
                    [⟨cleanPiece ⟨pyBeforeFirst [' ', 'A', 'n', 's', 'w', 'e', 'r', ':'] post2⟩,
                      cleanPiece ⟨post⟩, 0⟩]
                  else []) := by
              simp only [oneLineTryAnswer, i1.1, i2a, i3.1]
              split <;> rfl
            have hg1f : (pyIn " A:" (pyStrip raw) &&
                lowerStarts (pyStrip raw) ['q', ':']) = false := by
              simpa using hg1
            simp only [oneLineCardsE, oneLineCards, hE, hg1f, hg2,
              Bool.false_eq_true, if_false, if_true, hTry, hAnsd, hCd, i1a, i3a]
      · simp [oneLineCardsE, oneLineCards, hE, hg1, hg2, except_pure_def]

/-- The exception-aware indexed two-line loop never raises and agrees with
the pure structural loop on the corresponding suffix. -/
theorem twoGoE_eq (lines : List String) :
    ∀ (fuel i : Nat), twoGoE lines fuel i = .ok (twoLoopF fuel (lines.drop i)) := by
  intro fuel
  induction fuel with
  | zero =>
    intro i
    rfl
  | succ fuel ih =>
    intro i
    by_cases hi : i < lines.length - 1
    · have hlen : 2 ≤ (lines.drop i).length := by
        rw [List.length_drop]
        omega
      cases hd : lines.drop i with
      | nil =>
        rw [hd] at hlen
        simp at hlen
      | cons l1 t =>
        cases ht : t with
        | nil =>
          rw [hd, ht] at hlen
          simp at hlen
        | cons l2 rest =>
          rw [ht] at hd
          have hg1 : lines.get? i = some l1 := by
            have hq := List.get?_drop lines i 0
            rw [hd] at hq
            simpa using hq.symm
          have hg2 : lines.get? (i + 1) = some l2 := by
            have hq := List.get?_drop lines i 1
            rw [hd] at hq
            simpa using hq.symm
          have hd2 : lines.drop (i + 2) = rest := by
            have h2 := List.drop_drop 2 i lines
            rw [hd] at h2
            rw [← h2]
            simp
          have hd1 : lines.drop (i + 1) = l2 :: rest := by
            have h2 := List.drop_drop 1 i lines
            rw [hd] at h2
            rw [← h2]
            simp
          have p1 : pyIdxE lines i = .ok l1 := by
            unfold pyIdxE
            rw [hg1]
          have p2 : pyIdxE lines (i + 1) = .ok l2 := by
            unfold pyIdxE
            rw [hg2]
          rw [twoGoE, if_pos hi, p1, p2]
          by_cases hm : (qMatch l1 && aMatch l2) = true
          · rw [ih (i + 2), hd2]
            simp [hm, twoLoopF]
          · rw [ih (i + 1), hd1]
            simp [hm, twoLoopF]
    · rw [twoGoE, if_neg hi]
      have hlen : (lines.drop i).length ≤ 1 := by
        rw [List.length_drop]
        omega
      cases hd : lines.drop i with
      | nil => rfl
      | cons l1 t =>
        cases ht : t with
        | nil => rfl
        | cons l2 rest =>
          rw [hd, ht] at hlen
          simp at hlen

/-- The exception-aware separator loop never raises and agrees with the
pure loop. -/
theorem sepLoopE_ok :
    ∀ (seps : List String) (line : String),
      sepLoopE seps line = .ok (sepLoop seps line) := by
  intro seps
  induction seps with
  | nil =>
    intro line
    rfl
  | cons sep more ih =>
    intro line
    by_cases h : pyIn sep line = true
    · have hin := h
      unfold pyIn at hin
      cases hsp : splitFirstL sep.data line.data with
      | none =>
        rw [hsp] at hin
        simp at hin
      | some pr =>
        obtain ⟨pre, post⟩ := pr
        have hu := unpack2_pySplitPy line sep pre post hsp
        have hb : pyBeforeFirst sep.data line.data = pre := by
          unfold pyBeforeFirst
          rw [hsp]
        have ha : pyAfterFirst sep.data line.data = post := by
          unfold pyAfterFirst
          rw [hsp]
        simp only [sepLoopE, sepLoop, h, if_true, hu, hb, ha]
    · rw [sepLoopE, if_neg h, sepLoop, if_neg h]
      exact ih line

/-- The exception-aware numbered line body never raises. -/
theorem numberedLineE_ok (raw : String) :
    numberedLineE raw = .ok (numberedLine raw) := by
  unfold numberedLineE numberedLine
  by_cases hE : pyStrip raw = ""
  · rw [if_pos hE, if_pos hE]
  · rw [if_neg hE, if_neg hE]
    exact sepLoopE_ok sepsList _

/-- Claim C4: the layered parser is exception-free on every input: with the
fallible operations of the source (tuple unpacking of splits, list indexing,
json decoding) modelled explicitly, the parser always returns ok with the
card list of the pure parser, for arbitrary garbage included. -/
theorem parse_any_no_exception (s : String) :
    robustParseAnyE s = .ok (robustParseAny s) := by
  have e1 : parseTsvLinesE s = .ok (parseTsvLines s) :=
    foldLinesE_ok tsvLineE tsvLine tsvLineE_ok (pySplitlines s) []
  have e2 : parseQAOneLineE s = .ok (parseQAOneLine s) :=
    foldLinesE_ok oneLineCardsE oneLineCards oneLineCardsE_ok (pySplitlines s) []
  have e3 : parseQATwoLinesE s = .ok (parseQATwoLines s) := by
    unfold parseQATwoLinesE parseQATwoLines
    rw [twoGoE_eq (nonEmptyLines s) (nonEmptyLines s).length 0]
    rfl
  have e4 : parseNumberedPairsE s = .ok (parseNumberedPairs s) :=
    foldLinesE_ok numberedLineE numberedLine numberedLineE_ok (pySplitlines s) []
  have e5 : parseJsonListE s = .ok (parseJsonList s) := rfl
  simp only [robustParseAnyE, robustParseAny, firstNonempty, e1, e2, e3, e4, e5,
    except_bind_ok, except_pure_def]
  by_cases h1 : (parseTsvLines s).isEmpty = true
  · simp only [h1, Bool.not_true, Bool.false_eq_true, if_false, if_true]
    by_cases h2 : (parseQAOneLine s).isEmpty = true
    · simp only [h2, Bool.not_true, if_false, if_true]
      by_cases h3 : (parseQATwoLines s).isEmpty = true
      · simp only [h3, Bool.not_true, if_false, if_true]
        by_cases h4 : (parseNumberedPairs s).isEmpty = true
        · simp only [h4, Bool.not_true, if_false, if_true]
          by_cases h5 : (parseJsonList s).isEmpty = true
          · simp [h5]
          · simp [h5]
        · simp [h4]
      · simp [h3]
    · simp [h2]
  · simp [h1]

end ExceptAgreement

section SplitCandidatesLemmas

/-- A character failing the predicate survives dropWhile. -/
theorem mem_dropWhile_of_not (p : Char → Bool) :
    ∀ (l : List Char) (c : Char), c ∈ l → p c = false → c ∈ l.dropWhile p := by
  intro l
  induction l with
  | nil =>
    intro c hc _
    simp at hc
  | cons d t ih =>
    intro c hc hp
    by_cases hd : p d = true
    · rw [List.dropWhile_cons, if_pos hd]
      rcases List.mem_cons.mp hc with h1 | h1
      · rw [h1] at hp
        exact absurd hd (by simp [hp])
      · exact ih c h1 hp
    · rw [List.dropWhile_cons, if_neg hd]
      exact hc

/-- A non-whitespace character survives stripping. -/
theorem mem_stripList_of_not {l : List Char} {c : Char} (hc : c ∈ l)
    (hw : pyWs c = false) : c ∈ stripList l := by
  unfold stripList
  rw [List.mem_reverse]
  exact mem_dropWhile_of_not pyWs _ c
    (by rw [List.mem_reverse]; exact mem_dropWhile_of_not pyWs l c hc hw) hw

/-- A list containing a non-whitespace character strips to a non-empty list. -/
theorem stripList_ne_nil_of {l : List Char} {c : Char} (hc : c ∈ l)
    (hw : pyWs c = false) : stripList l ≠ [] := by
  intro e
  have hm := mem_stripList_of_not hc hw
  rw [e] at hm
  simp at hm

/-- Every non-whitespace character of the input or the accumulator ends up
inside some piece of the sentence split. -/
theorem splitSent_covers :
    ∀ (cs acc : List Char) (pP skip : Bool) (c : Char),
      pyWs c = false → (c ∈ cs ∨ c ∈ acc) →
      ∃ p ∈ splitSentGo cs acc pP skip, c ∈ p := by
  intro cs
  induction cs with
  | nil =>
    intro acc pP skip c _ hm
    rcases hm with hm | hm
    · simp at hm
    · refine ⟨acc.reverse, ?_, by simp [hm]⟩
      unfold splitSentGo
      split <;> simp
  | cons d rest ih =>
    intro acc pP skip c hw hm
    by_cases hs : skip = true
    · subst hs
      by_cases hd : pyWs d = true
      · rw [splitSentGo, if_pos rfl, if_pos hd]
        apply ih
        · exact hw
        · rcases hm with hm | hm
          · rcases List.mem_cons.mp hm with h1 | h1
            · rw [h1] at hw
              exact absurd hd (by simp [hw])
            · exact Or.inl h1
          · exact Or.inr hm
      · rw [splitSentGo, if_pos rfl, if_neg hd]
        rcases hm with hm | hm
        · rcases List.mem_cons.mp hm with h1 | h1
          · obtain ⟨p, hp, hcp⟩ := ih [d] (isSentPunct d) false c hw (Or.inr (by simp [h1]))
            exact ⟨p, List.mem_cons_of_mem _ hp, hcp⟩
          · obtain ⟨p, hp, hcp⟩ := ih [d] (isSentPunct d) false c hw (Or.inl h1)
            exact ⟨p, List.mem_cons_of_mem _ hp, hcp⟩
        · exact ⟨acc.reverse, by simp, by simp [hm]⟩
    · have hs' : skip = false := by
        cases skip
        · rfl
        · exact absurd rfl hs
      subst hs'
      by_cases hcond : (pyWs d && pP) = true
      · rw [splitSentGo, if_neg (by simp), if_pos hcond]
        apply ih
        · exact hw
        · rcases hm with hm | hm
          · rcases List.mem_cons.mp hm with h1 | h1
            · rw [h1] at hw
              have hd := (Bool.and_eq_true _ _ ▸ hcond).1
              exact absurd hd (by simp [hw])
            · exact Or.inl h1
          · exact Or.inr hm
      · rw [splitSentGo, if_neg (by simp), if_neg hcond]
        apply ih
        · exact hw
        · rcases hm with hm | hm
          · rcases List.mem_cons.mp hm with h1 | h1
            · exact Or.inr (by simp [h1])
            · exact Or.inl h1
          · exact Or.inr (List.mem_cons_of_mem d hm)

end SplitCandidatesLemmas

/-- Counterexamples to claim C5 as stated: the whitespace-only input and the
input consisting of a single heading line are non-empty but split to no
units (the heading separator is consumed and all remaining parts strip to
empty). -/
theorem split_candidates_counterexample :
    (" " : String) ≠ "" ∧ splitCandidates " " = [] ∧
    ("CHAPTER ONE\n" : String) ≠ "" ∧ splitCandidates "CHAPTER ONE\n" = [] :=
  ⟨by decide, by decide, by decide, by decide⟩

/-- Claim C5, amended: split_candidates returns a non-empty unit sequence
for every input containing a non-whitespace character, provided that when
the heading-tier split applies (more than one raw part) some delimited part
contains non-whitespace content; whitespace-only inputs and inputs whose
non-whitespace content is entirely consumed as heading separators yield the
empty sequence. -/
theorem split_candidates_nonempty (s : String)
    (hch : ∃ c ∈ s.data, pyWs c = false)
    (hhead : 1 < (headingParts s.data).length →
      ∃ p ∈ headingParts s.data, stripList p ≠ []) :
    splitCandidates s ≠ [] := by
  intro he
  simp only [splitCandidates] at he
  by_cases h1 : 1 < (headingParts s.data).length
  · rw [if_pos h1] at he
    obtain ⟨p, hp, hpne⟩ := hhead h1
    have hm1 : stripList p ∈ (headingParts s.data).map stripList :=
      List.mem_map_of_mem _ hp
    have hm2 : stripList p ∈
        ((headingParts s.data).map stripList).filter (fun q => !q.isEmpty) :=
      List.mem_filter.mpr ⟨hm1, by simp [List.isEmpty_iff, hpne]⟩
    have hm3 : (⟨stripList p⟩ : String) ∈
        (((headingParts s.data).map stripList).filter
          (fun q => !q.isEmpty)).map (fun q => (⟨q⟩ : String)) :=
      List.mem_map_of_mem _ hm2
    rw [he] at hm3
    simp at hm3
  · rw [if_neg h1] at he
    by_cases h2 : 1 <
        (((splitNN s.data).map stripList).filter (fun p => !p.isEmpty)).length
    · rw [if_pos h2] at he
      rw [List.map_eq_nil] at he
      rw [he] at h2
      simp at h2
    · rw [if_neg h2] at he
      obtain ⟨c, hc, hw⟩ := hch
      obtain ⟨p, hp, hcp⟩ := splitSent_covers s.data [] false false c hw (Or.inl hc)
      have hpne : stripList p ≠ [] := stripList_ne_nil_of hcp hw
      have hm1 : stripList p ∈ (splitSent s.data).map stripList :=
        List.mem_map_of_mem _ hp
      have hm2 : stripList p ∈
          ((splitSent s.data).map stripList).filter (fun q => !q.isEmpty) :=
        List.mem_filter.mpr ⟨hm1, by simp [List.isEmpty_iff, hpne]⟩
      have hm3 : (⟨stripList p⟩ : String) ∈
          (((splitSent s.data).map stripList).filter
            (fun q => !q.isEmpty)).map (fun q => (⟨q⟩ : String)) :=
        List.mem_map_of_mem _ hm2
      rw [he] at hm3
      simp at hm3

/-- Witness for split_candidates_nonempty at a plain word input. -/
theorem split_candidates_nonempty_witness :
    (∃ c ∈ ("hello" : String).data, pyWs c = false) ∧
    splitCandidates "hello" ≠ [] :=
  ⟨by decide, split_candidates_nonempty "hello" (by decide) (by decide)⟩

section ChunkSmallLemmas

/-- Stripping never lengthens a character list. -/
theorem stripList_length_le (l : List Char) : (stripList l).length ≤ l.length := by
  unfold stripList
  have h1 := length_dropWhile_le pyWs l
  have h2 := length_dropWhile_le pyWs (l.dropWhile pyWs).reverse
  simp only [List.length_reverse] at h2 ⊢
  omega

/-- Filtering never increases the summed part lengths. -/
theorem sumLens_filter_le (pred : List Char → Bool) :
    ∀ Y : List (List Char),
      ((Y.filter pred).map List.length).sum ≤ (Y.map List.length).sum := by
  intro Y
  induction Y with
  | nil => simp
  | cons x xs ih =>
    rw [List.filter_cons]
    by_cases h : pred x = true
    · rw [if_pos h]
      simp only [List.map_cons, List.sum_cons]
      omega
    · rw [if_neg h]
      simp only [List.map_cons, List.sum_cons]
      omega

/-- Stripping every part never increases the summed part lengths. -/
theorem sumLens_map_strip_le :
    ∀ Y : List (List Char),
      ((Y.map stripList).map List.length).sum ≤ (Y.map List.length).sum := by
  intro Y
  induction Y with
  | nil => simp
  | cons x xs ih =>
    simp only [List.map_cons, List.sum_cons]
    have := stripList_length_le x
    omega

/-- The token sum of parts wrapped as strings is the summed character
lengths. -/
theorem tokSum_map_mk :
    ∀ Y : List (List Char),
      tokSum (Y.map (fun p => (⟨p⟩ : String))) = (Y.map List.length).sum := by
  intro Y
  induction Y with
  | nil => rfl
  | cons x xs ih =>
    simp only [List.map_cons, tokSum, List.sum_cons] at ih ⊢
    have hx : charTokens ⟨x⟩ = x.length := rfl
    rw [ih, hx]

/-- The line splitter that keeps newlines never returns the empty list. -/
theorem linesKeepNl_ne_nil : ∀ cs : List Char, linesKeepNl cs ≠ [] := by
  intro cs
  induction cs with
  | nil => simp [linesKeepNl]
  | cons c rest ih =>
    simp only [linesKeepNl]
    by_cases hc : c = '\n'
    · rw [if_pos hc]
      simp
    · rw [if_neg hc]
      cases h : linesKeepNl rest with
      | nil =>
        show ([[c]] : List (List Char)) ≠ []
        simp
      | cons l ls =>
        show ((c :: l) :: ls : List (List Char)) ≠ []
        simp

/-- The kept-newline lines partition the characters: their lengths sum to the
input length. -/
theorem sumLens_linesKeepNl :
    ∀ cs : List Char, ((linesKeepNl cs).map List.length).sum = cs.length := by
  intro cs
  induction cs with
  | nil => rfl
  | cons c rest ih =>
    simp only [linesKeepNl]
    by_cases hc : c = '\n'
    · rw [if_pos hc]
      simp only [List.map_cons, List.sum_cons, List.length_cons, List.length_nil]
      omega
    · rw [if_neg hc]
      cases h : linesKeepNl rest with
      | nil => exact absurd h (linesKeepNl_ne_nil rest)
      | cons l ls =>
        rw [h] at ih
        show (((c :: l) :: ls).map List.length).sum = (c :: rest).length
        simp only [List.map_cons, List.sum_cons, List.length_cons] at ih ⊢
        omega

/-- The heading grouping covers at most the accumulator plus the pieces. -/
theorem sumLens_headingGroup :
    ∀ (ps : List (List Char)) (acc : List Char),
      ((headingGroup ps acc).map List.length).sum ≤
        acc.length + (ps.map List.length).sum := by
  intro ps
  induction ps with
  | nil =>
    intro acc
    simp [headingGroup]
  | cons p ps ih =>
    intro acc
    simp only [headingGroup]
    by_cases h : isHeadingPiece p = true
    · rw [if_pos h]
      simp only [List.map_cons, List.sum_cons]
      have := ih []
      simp only [List.length_nil, Nat.zero_add] at this
      omega
    · rw [if_neg h]
      have := ih (acc ++ p)
      simp only [List.map_cons, List.sum_cons, List.length_append] at this ⊢
      omega

/-- The heading-split parts cover at most the input characters. -/
theorem sumLens_headingParts (cs : List Char) :
    ((headingParts cs).map List.length).sum ≤ cs.length := by
  have h := sumLens_headingGroup (linesKeepNl cs) []
  rw [sumLens_linesKeepNl cs] at h
  simpa [headingParts] using h

/-- The paragraph split worker covers at most the remaining characters plus
the accumulator and the pending newline run. -/
theorem sumLens_splitNNGo :
    ∀ (cs acc : List Char) (p : Nat),
      ((splitNNGo cs acc p).map List.length).sum ≤ cs.length + acc.length + p := by
  intro cs
  induction cs with
  | nil =>
    intro acc p
    simp only [splitNNGo]
    by_cases h : 2 ≤ p
    · rw [if_pos h]
      simp only [List.map_cons, List.map_nil, List.sum_cons, List.sum_nil,
        List.length_reverse, List.length_nil]
      omega
    · rw [if_neg h]
      simp only [List.map_cons, List.map_nil, List.sum_cons, List.sum_nil,
        List.length_append, List.length_replicate, List.length_reverse,
        List.length_nil]
      omega
  | cons c rest ih =>
    intro acc p
    simp only [splitNNGo]
    by_cases hc : c = '\n'
    · rw [if_pos hc]
      have := ih acc (p + 1)
      simp only [List.length_cons]
      omega
    · rw [if_neg hc]
      by_cases hp : 2 ≤ p
      · rw [if_pos hp]
        have := ih [c] 0
        simp only [List.map_cons, List.sum_cons, List.length_cons,
          List.length_nil, List.length_reverse] at this ⊢
        omega
      · rw [if_neg hp]
        have := ih (c :: (List.replicate p '\n' ++ acc)) 0
        simp only [List.length_cons, List.length_append,
          List.length_replicate] at this ⊢
        omega

/-- The sentence split worker covers at most the remaining characters plus the
accumulator. -/
theorem sumLens_splitSentGo :
    ∀ (cs acc : List Char) (prevP skipping : Bool),
      ((splitSentGo cs acc prevP skipping).map List.length).sum ≤
        cs.length + acc.length := by
  intro cs
  induction cs with
  | nil =>
    intro acc prevP skipping
    cases skipping <;>
      simp [splitSentGo]
  | cons c rest ih =>
    intro acc prevP skipping
    simp only [splitSentGo]
    by_cases hs : skipping = true
    · rw [if_pos hs]
      by_cases hw : pyWs c = true
      · rw [if_pos hw]
        have := ih acc false true
        simp only [List.length_cons]
        omega
      · rw [if_neg hw]
        have := ih [c] (isSentPunct c) false
        simp only [List.map_cons, List.sum_cons, List.length_cons,
          List.length_nil, List.length_reverse] at this ⊢
        omega
    · rw [if_neg hs]
      by_cases hp : (pyWs c && prevP) = true
      · rw [if_pos hp]
        have := ih acc false true
        simp only [List.length_cons]
        omega
      · rw [if_neg hp]
        have := ih (c :: acc) (isSentPunct c) false
        simp only [List.length_cons] at this ⊢
        omega

/-- One tier of the splitter (strip, drop empties, wrap) keeps the token sum
below the summed raw part lengths. -/
theorem tokSum_tier (Y : List (List Char)) :
    tokSum (((Y.map stripList).filter (fun p => !p.isEmpty)).map
      (fun p => (⟨p⟩ : String))) ≤ (Y.map List.length).sum := by
  rw [tokSum_map_mk]
  exact le_trans (sumLens_filter_le _ _) (sumLens_map_strip_le _)

/-- The candidate units of the splitter carry at most as many tokens as the
input text. -/
theorem tokSum_splitCandidates_le (s : String) :
    tokSum (splitCandidates s) ≤ charTokens s := by
  have h1 : ((headingParts s.data).map List.length).sum ≤ s.data.length :=
    sumLens_headingParts s.data
  have h2 : ((splitNN s.data).map List.length).sum ≤ s.data.length := by
    have := sumLens_splitNNGo s.data [] 0
    simpa [splitNN] using this
  have h3 : ((splitSent s.data).map List.length).sum ≤ s.data.length := by
    have := sumLens_splitSentGo s.data [] false false
    simpa [splitSent] using this
  simp only [splitCandidates]
  by_cases hl : 1 < (headingParts s.data).length
  · rw [if_pos hl]
    exact le_trans (tokSum_tier _) h1
  · rw [if_neg hl]
    by_cases hq :
        1 < (((splitNN s.data).map stripList).filter (fun p => !p.isEmpty)).length
    · rw [if_pos hq]
      exact le_trans (tokSum_tier _) h2
    · rw [if_neg hq]
      exact le_trans (tokSum_tier _) h3

/-- When the whole unit list fits within the target from the current state,
the packer only accumulates and flushes no chunk. -/
theorem pack_all_fit (t o : Nat) :
    ∀ (units : List String) (st : PackState),
      st.chunks = [] → st.curTok + tokSum units ≤ t →
      units.foldl (packStep t o) st =
        ⟨[], st.cur ++ units, st.curTok + tokSum units⟩ := by
  intro units
  induction units with
  | nil =>
    intro st h1 h2
    cases st with
    | mk chunks cur curTok =>
      have h1x : chunks = [] := h1
      subst h1x
      simp [tokSum]
  | cons u us ih =>
    intro st h1 h2
    have htok : tokSum (u :: us) = charTokens u + tokSum us := by
      simp [tokSum]
    have hcu : charTokens u = (encodeT u).length := rfl
    have hfit : st.curTok + (encodeT u).length ≤ t := by
      omega
    rw [List.foldl_cons]
    have hstep : packStep t o st u =
        ⟨st.chunks, st.cur ++ [u], st.curTok + (encodeT u).length⟩ := by
      simp only [packStep]
      rw [if_pos hfit]
    rw [hstep]
    have hrec := ih ⟨st.chunks, st.cur ++ [u], st.curTok + (encodeT u).length⟩ h1
      (by
        show st.curTok + (encodeT u).length + tokSum us ≤ t
        omega)
    rw [hrec]
    simp only [PackState.mk.injEq]
    refine ⟨trivial, by simp, by omega⟩

end ChunkSmallLemmas

/-- C6 counterexample: the one-space document is a non-empty string whose
token count is below the default target, yet chunk_text returns the empty
sequence, because the unit splitter discards whitespace-only content. -/
theorem chunk_text_small_counterexample :
    (" " : String) ≠ "" ∧ charTokens " " < 1400 ∧ chunk_text " " 1400 150 = [] :=
  ⟨by decide, by decide, by decide⟩

/-- C6 (corrected): chunk_text on the empty string yields the empty chunk
sequence, and on any document whose unit split is non-empty and whose token
count is smaller than target_tokens it yields exactly one chunk.  The original
claim fails for non-empty documents whose unit split is empty, such as
whitespace-only text. -/
theorem chunk_text_empty_and_small :
    (∀ t o : Nat, chunk_text "" t o = []) ∧
    (∀ (s : String) (t o : Nat), splitCandidates s ≠ [] → charTokens s < t →
      (chunk_text s t o).length = 1) := by
  constructor
  · intro t o
    have h0 : splitCandidates "" = [] := by decide
    simp [chunk_text, h0]
  · intro s t o hne hlt
    have hsum : tokSum (splitCandidates s) ≤ charTokens s :=
      tokSum_splitCandidates_le s
    simp only [chunk_text]
    rw [pack_all_fit t o (splitCandidates s) ⟨[], [], 0⟩ rfl
      (by
        show 0 + tokSum (splitCandidates s) ≤ t
        omega)]
    simp [List.isEmpty_iff, hne]

/-- Witness for chunk_text_empty_and_small: the empty string at the default
parameters, and a small plain word below a target of 10. -/
theorem chunk_text_empty_and_small_witness :
    chunk_text "" 1400 150 = [] ∧
    splitCandidates "hello" ≠ [] ∧ charTokens "hello" < 10 ∧
    (chunk_text "hello" 10 3).length = 1 :=
  ⟨chunk_text_empty_and_small.1 1400 150, by decide, by decide,
   chunk_text_empty_and_small.2 "hello" 10 3 (by decide) (by decide)⟩

section ChunkBoundLemmas

/-- Token counts are additive over string append. -/
theorem charTokens_append (a b : String) :
    charTokens (a ++ b) = charTokens a + charTokens b := by
  simp [charTokens, encodeT, String.data_append]

/-- Unfolding of the double-newline join on a list of two or more units. -/
theorem joinNN_cons_cons (s1 s2 : String) (rest : List String) :
    joinNN (s1 :: s2 :: rest) = s1 ++ "\n\n" ++ joinNN (s2 :: rest) := rfl

/-- Token count of the double-newline join: the unit token sum plus two per
separator. -/
theorem charTokens_joinNN :
    ∀ (rest : List String) (s : String),
      charTokens (joinNN (s :: rest)) = tokSum (s :: rest) + 2 * rest.length := by
  intro rest
  induction rest with
  | nil =>
    intro s
    simp [joinNN, tokSum]
  | cons s2 rest2 ih =>
    intro s
    rw [joinNN_cons_cons, charTokens_append, charTokens_append, ih s2]
    have h22 : charTokens "\n\n" = 2 := by decide
    have ht1 : tokSum (s :: s2 :: rest2) = charTokens s + tokSum (s2 :: rest2) := by
      simp [tokSum]
    simp only [List.length_cons]
    omega

/-- The adjacent newline-pair counter splits over append, the flag of the
right part being the trailing-newline state of the left part. -/
theorem countNNGo_append :
    ∀ (x y : List Char) (b : Bool),
      countNNGo (x ++ y) b = countNNGo x b + countNNGo y (endNl x b) := by
  intro x
  induction x with
  | nil =>
    intro y b
    simp [countNNGo, endNl]
  | cons c rest ih =>
    intro y b
    simp only [List.cons_append, countNNGo, endNl, List.append_eq]
    by_cases hc : c = '\n'
    · rw [if_pos hc, if_pos hc]
      have hb : (c == '\n') = true := by simp [hc]
      rw [hb, ih y true, Nat.add_assoc]
    · rw [if_neg hc, if_neg hc]
      have hb : (c == '\n') = false := by simp [hc]
      rw [hb, ih y false]

/-- Starting the newline-pair counter with the flag raised counts at least as
much as starting with it lowered. -/
theorem countNNGo_flag_le (z : List Char) : countNNGo z false ≤ countNNGo z true := by
  cases z with
  | nil => simp [countNNGo]
  | cons c rest =>
    by_cases hc : c = '\n' <;> simp [countNNGo, hc]

/-- Inserting a double newline between two texts creates at least one more
adjacent newline pair than the right text already has. -/
theorem nlPairs_append_nn (a b : String) :
    1 + nlPairs b ≤ nlPairs (a ++ "\n\n" ++ b) := by
  have hnn : ("\n\n" : String).data = ['\n', '\n'] := by decide
  have hd : (a ++ "\n\n" ++ b).data = a.data ++ ('\n' :: '\n' :: b.data) := by
    simp [String.data_append, hnn]
  have hc2 : ∀ fl : Bool,
      1 + countNNGo b.data false ≤ countNNGo ('\n' :: '\n' :: b.data) fl := by
    intro fl
    have hfl := countNNGo_flag_le b.data
    cases fl <;> simp [countNNGo] <;> omega
  simp only [nlPairs, countNN]
  rw [hd, countNNGo_append]
  have h3 := hc2 (endNl a.data false)
  omega

/-- Joining k + 1 units with the double-newline separator creates at least k
adjacent newline pairs. -/
theorem nlPairs_joinNN :
    ∀ (rest : List String) (s : String),
      rest.length ≤ nlPairs (joinNN (s :: rest)) := by
  intro rest
  induction rest with
  | nil =>
    intro s
    simp
  | cons s2 rest2 ih =>
    intro s
    rw [joinNN_cons_cons]
    have h1 := nlPairs_append_nn s (joinNN (s2 :: rest2))
    have h2 := ih s2
    simp only [List.length_cons]
    omega

/-- A flushed accumulator whose token sum is within the 13/10 bound yields a
chunk within the bound relaxed by its newline pairs. -/
theorem joinNN_P (t : Nat) (cur : List String) (hne : cur ≠ [])
    (hb : 10 * tokSum cur ≤ 13 * t) :
    10 * charTokens (joinNN cur) ≤ 13 * t + 20 * nlPairs (joinNN cur) := by
  cases cur with
  | nil => exact absurd rfl hne
  | cons c0 cr =>
    have h1 := charTokens_joinNN cr c0
    have h2 := nlPairs_joinNN cr c0
    omega

/-- The hard-split loop on a singleton accumulator at its own token count:
with overlap below target and enough fuel it terminates by its condition,
emitting parts of at most target tokens, leaving a singleton remainder within
the 13/10 bound, and emitting at least one part when the entry count exceeds
the bound. -/
theorem hardSplit_singleton :
    ∀ (fuel t o : Nat) (chunks : List String) (r : String),
      0 < t → o < t → charTokens r + 2 ≤ fuel →
      ∃ (ps : List String) (r' : String),
        hardSplit fuel t o chunks [r] (charTokens r) =
          ⟨chunks ++ ps, [r'], charTokens r'⟩ ∧
        10 * charTokens r' ≤ 13 * t ∧
        (∀ p ∈ ps, charTokens p ≤ t) ∧
        (13 * t < 10 * charTokens r → ps ≠ []) := by
  intro fuel
  induction fuel with
  | zero =>
    intro t o chunks r ht ho hfuel
    exact absurd hfuel (by omega)
  | succ f ih =>
    intro t o chunks r ht ho hfuel
    by_cases hc : 13 * t < 10 * charTokens r
    · have h1 : charTokens r = r.data.length := rfl
      have hsi : (0 : Int) ≤ (t : Int) - (o : Int) := by omega
      have htn : ((t : Int) - (o : Int)).toNat = t - o := by omega
      have hstep : hardSplit (f + 1) t o chunks [r] (charTokens r) =
          hardSplit f t o (chunks ++ [decodeT (r.data.take t)])
            [decodeT (r.data.drop (t - o))]
            (charTokens (decodeT (r.data.drop (t - o)))) := by
        simp only [hardSplit]
        rw [if_pos hc, if_pos hsi, htn]
        rfl
      have h2 : charTokens (decodeT (r.data.drop (t - o))) = r.data.length - (t - o) := by
        have hdc : charTokens (decodeT (r.data.drop (t - o)))
            = (r.data.drop (t - o)).length := rfl
        rw [hdc, List.length_drop]
      obtain ⟨ps', r', heq, hb, hall, -⟩ :=
        ih t o (chunks ++ [decodeT (r.data.take t)]) (decodeT (r.data.drop (t - o)))
          ht ho (by omega)
      refine ⟨decodeT (r.data.take t) :: ps', r', ?_, hb, ?_, ?_⟩
      · rw [hstep, heq]
        simp [List.append_assoc]
      · intro p hp
        rcases List.mem_cons.mp hp with h3 | h3
        · subst h3
          have htake : charTokens (decodeT (r.data.take t)) = min t r.data.length := by
            have hdc : charTokens (decodeT (r.data.take t)) = (r.data.take t).length := rfl
            rw [hdc, List.length_take]
          omega
        · exact hall p h3
      · intro hgt
        simp
    · refine ⟨[], r, ?_, by omega, ?_, ?_⟩
      · simp only [hardSplit]
        rw [if_neg hc]
        simp
      · intro p hp
        simp at hp
      · intro hgt
        exact absurd hgt hc

/-- The hard-split loop entered from the packer with a two-unit accumulator
and its exact token sum: with overlap below target and the fuel the packer
supplies, it returns a state whose emitted parts are within target tokens and
whose accumulator count is its token sum within the 13/10 bound. -/
theorem hardSplit_pair (fuel t o : Nat) (chunks : List String) (s1 s2 : String)
    (ht : 0 < t) (ho : o < t)
    (hfuel : charTokens s1 + charTokens s2 + 4 ≤ fuel) :
    ∃ (ps : List String) (cur' : List String) (ct' : Nat),
      hardSplit fuel t o chunks [s1, s2] (charTokens s1 + charTokens s2) =
        ⟨chunks ++ ps, cur', ct'⟩ ∧
      (∀ p ∈ ps, charTokens p ≤ t) ∧ ct' = tokSum cur' ∧ 10 * ct' ≤ 13 * t := by
  cases fuel with
  | zero => exact absurd hfuel (by omega)
  | succ f =>
    by_cases hc : 13 * t < 10 * (charTokens s1 + charTokens s2)
    · have hsi : (0 : Int) ≤ (t : Int) - (o : Int) := by omega
      have htn : ((t : Int) - (o : Int)).toNat = t - o := by omega
      have hstep : hardSplit (f + 1) t o chunks [s1, s2] (charTokens s1 + charTokens s2) =
          hardSplit f t o (chunks ++ [decodeT ((encodeT (joinNN [s1, s2])).take t)])
            [decodeT ((encodeT (joinNN [s1, s2])).drop (t - o))]
            (charTokens (decodeT ((encodeT (joinNN [s1, s2])).drop (t - o)))) := by
        simp only [hardSplit]
        rw [if_pos hc, if_pos hsi, htn]
        rfl
      have hjj : joinNN [s1, s2] = s1 ++ "\n\n" ++ s2 := rfl
      have hA : charTokens (s1 ++ "\n\n" ++ s2) = charTokens s1 + 2 + charTokens s2 := by
        rw [charTokens_append, charTokens_append]
        have h22 : charTokens "\n\n" = 2 := by decide
        omega
      have h2 : charTokens (decodeT ((encodeT (joinNN [s1, s2])).drop (t - o)))
          = charTokens s1 + 2 + charTokens s2 - (t - o) := by
        have hdc : charTokens (decodeT ((encodeT (joinNN [s1, s2])).drop (t - o)))
            = ((encodeT (joinNN [s1, s2])).drop (t - o)).length := rfl
        rw [hdc, List.length_drop]
        have hel : (encodeT (joinNN [s1, s2])).length = charTokens (joinNN [s1, s2]) := rfl
        rw [hel, hjj, hA]
      obtain ⟨ps', r', heq, hr, hps', -⟩ :=
        hardSplit_singleton f t o (chunks ++ [decodeT ((encodeT (joinNN [s1, s2])).take t)])
          (decodeT ((encodeT (joinNN [s1, s2])).drop (t - o))) ht ho (by omega)
      refine ⟨decodeT ((encodeT (joinNN [s1, s2])).take t) :: ps', [r'], charTokens r',
        ?_, ?_, by simp [tokSum], hr⟩
      · rw [hstep, heq]
        simp [List.append_assoc]
      · intro p hp
        rcases List.mem_cons.mp hp with h3 | h3
        · subst h3
          have htake : charTokens (decodeT ((encodeT (joinNN [s1, s2])).take t))
              = min t (encodeT (joinNN [s1, s2])).length := by
            have hdc : charTokens (decodeT ((encodeT (joinNN [s1, s2])).take t))
                = ((encodeT (joinNN [s1, s2])).take t).length := rfl
            rw [hdc, List.length_take]
          omega
        · exact hps' p h3
    · refine ⟨[], [s1, s2], charTokens s1 + charTokens s2, ?_, ?_, by simp [tokSum],
        by omega⟩
      · simp only [hardSplit]
        rw [if_neg hc]
        simp
      · intro p hp
        simp at hp

/-- The packer's non-fitting step when the flushed chunk list is empty:
hard-split the unit alone. -/
theorem packStep_flush_none (t o : Nat) (st : PackState) (u : String)
    (hfit : ¬(st.curTok + (encodeT u).length ≤ t))
    (hgl : (if st.cur.isEmpty then st.chunks
        else st.chunks ++ [joinNN st.cur]).getLast? = none) :
    packStep t o st u =
      hardSplit (charTokens u + 4) t o
        (if st.cur.isEmpty then st.chunks else st.chunks ++ [joinNN st.cur])
        [u] (charTokens u) := by
  simp only [packStep]
  rw [if_neg hfit, hgl]
  rfl

/-- The packer's non-fitting step when a chunk precedes: hard-split the
trailing-overlap slice of the last chunk together with the unit. -/
theorem packStep_flush_some (t o : Nat) (st : PackState) (u last : String)
    (hfit : ¬(st.curTok + (encodeT u).length ≤ t))
    (hgl : (if st.cur.isEmpty then st.chunks
        else st.chunks ++ [joinNN st.cur]).getLast? = some last) :
    packStep t o st u =
      hardSplit (charTokens (decodeT ((encodeT last).drop ((encodeT last).length - o)))
          + charTokens u + 4) t o
        (if st.cur.isEmpty then st.chunks else st.chunks ++ [joinNN st.cur])
        [decodeT ((encodeT last).drop ((encodeT last).length - o)), u]
        (charTokens (decodeT ((encodeT last).drop ((encodeT last).length - o)))
          + charTokens u) := by
  simp only [packStep]
  rw [if_neg hfit, hgl]
  rfl

/-- One packer step preserves the packing invariant: every completed chunk is
within the 13/10 bound relaxed by its newline pairs, the accumulator count is
the accumulator's token sum, and that count is within the 13/10 bound. -/
theorem packStep_inv (t o : Nat) (ht : 0 < t) (ho : o < t) (st : PackState) (u : String)
    (h : (∀ c ∈ st.chunks, 10 * charTokens c ≤ 13 * t + 20 * nlPairs c) ∧
      st.curTok = tokSum st.cur ∧ 10 * st.curTok ≤ 13 * t) :
    (∀ c ∈ (packStep t o st u).chunks, 10 * charTokens c ≤ 13 * t + 20 * nlPairs c) ∧
    (packStep t o st u).curTok = tokSum (packStep t o st u).cur ∧
    10 * (packStep t o st u).curTok ≤ 13 * t := by
  obtain ⟨hch, hcur, hb⟩ := h
  by_cases hfit : st.curTok + (encodeT u).length ≤ t
  · have hstep : packStep t o st u =
        ⟨st.chunks, st.cur ++ [u], st.curTok + (encodeT u).length⟩ := by
      simp only [packStep]
      rw [if_pos hfit]
    rw [hstep]
    refine ⟨hch, ?_, ?_⟩
    · show st.curTok + (encodeT u).length = tokSum (st.cur ++ [u])
      have h4 : tokSum (st.cur ++ [u]) = tokSum st.cur + charTokens u := by
        simp [tokSum]
      have hcu : charTokens u = (encodeT u).length := rfl
      omega
    · show 10 * (st.curTok + (encodeT u).length) ≤ 13 * t
      have hcu : charTokens u = (encodeT u).length := rfl
      omega
  · have hch1 : ∀ c ∈ (if st.cur.isEmpty then st.chunks
        else st.chunks ++ [joinNN st.cur]),
        10 * charTokens c ≤ 13 * t + 20 * nlPairs c := by
      by_cases he : st.cur.isEmpty
      · rw [if_pos he]
        exact hch
      · rw [if_neg he]
        intro c hc
        rcases List.mem_append.mp hc with h1 | h1
        · exact hch c h1
        · have hco : c = joinNN st.cur := by simpa using h1
          subst hco
          refine joinNN_P t st.cur ?_ ?_
          · intro hnil
            rw [hnil] at he
            simp at he
          · omega
    cases hgl : (if st.cur.isEmpty then st.chunks
        else st.chunks ++ [joinNN st.cur]).getLast? with
    | none =>
      obtain ⟨ps, r', heq, hr, hps, -⟩ :=
        hardSplit_singleton (charTokens u + 4) t o
          (if st.cur.isEmpty then st.chunks else st.chunks ++ [joinNN st.cur]) u
          ht ho (by omega)
      rw [packStep_flush_none t o st u hfit hgl, heq]
      refine ⟨?_, ?_, ?_⟩
      · intro c hc
        rcases List.mem_append.mp hc with h1 | h1
        · exact hch1 c h1
        · have := hps c h1
          omega
      · show charTokens r' = tokSum [r']
        simp [tokSum]
      · exact hr
    | some last =>
      obtain ⟨ps, cur', ct', heq, hps, hcur', hb'⟩ :=
        hardSplit_pair
          (charTokens (decodeT ((encodeT last).drop ((encodeT last).length - o)))
            + charTokens u + 4) t o
          (if st.cur.isEmpty then st.chunks else st.chunks ++ [joinNN st.cur])
          (decodeT ((encodeT last).drop ((encodeT last).length - o))) u
          ht ho (by omega)
      rw [packStep_flush_some t o st u last hfit hgl, heq]
      refine ⟨?_, hcur', hb'⟩
      intro c hc
      rcases List.mem_append.mp hc with h1 | h1
      · exact hch1 c h1
      · have := hps c h1
        omega

/-- The packing invariant holds along the whole fold. -/
theorem foldl_inv (t o : Nat) (ht : 0 < t) (ho : o < t) :
    ∀ (units : List String) (st : PackState),
      ((∀ c ∈ st.chunks, 10 * charTokens c ≤ 13 * t + 20 * nlPairs c) ∧
        st.curTok = tokSum st.cur ∧ 10 * st.curTok ≤ 13 * t) →
      ((∀ c ∈ (units.foldl (packStep t o) st).chunks,
          10 * charTokens c ≤ 13 * t + 20 * nlPairs c) ∧
        (units.foldl (packStep t o) st).curTok =
          tokSum (units.foldl (packStep t o) st).cur ∧
        10 * (units.foldl (packStep t o) st).curTok ≤ 13 * t) := by
  intro units
  induction units with
  | nil =>
    intro st h
    simpa using h
  | cons u us ih =>
    intro st h
    rw [List.foldl_cons]
    exact ih (packStep t o st u) (packStep_inv t o ht ho st u h)

end ChunkBoundLemmas

/-- C1 counterexample: at target 10 and overlap 1, the text
"a. b. c. d. e. f." produces a chunk of 18 tokens, above 13 = floor(10 * 1.3),
even though every candidate unit is within the bound — the rendered chunk
exceeds the bound because the double-newline join adds tokens the packer's
running count never sees, not because any single indivisible unit was
larger. -/
theorem chunk_bound_counterexample :
    (∃ c ∈ chunk_text "a. b. c. d. e. f." 10 1, 13 * 10 < 10 * charTokens c) ∧
    (∀ u ∈ splitCandidates "a. b. c. d. e. f.", 10 * charTokens u ≤ 13 * 10) := by
  constructor
  · decide
  · decide

/-- C1 (corrected): for positive target and overlap below target, every chunk
is within the 13/10 bound relaxed by twice the tokens of its adjacent
newline pairs (the join separators the running count does not account for);
and when the whole text is a single candidate unit above the bound, the hard
split yields at least two chunks, each strictly within the 13/10 bound. -/
theorem chunk_bound_amended (t o : Nat) (text : String) (ht : 0 < t) (ho : o < t) :
    (∀ c ∈ chunk_text text t o, 10 * charTokens c ≤ 13 * t + 20 * nlPairs c) ∧
    (∀ u : String, splitCandidates text = [u] → 13 * t < 10 * charTokens u →
      2 ≤ (chunk_text text t o).length ∧
      ∀ c ∈ chunk_text text t o, 10 * charTokens c ≤ 13 * t) := by
  constructor
  · intro c hc
    obtain ⟨hch, hcur, hb⟩ := foldl_inv t o ht ho (splitCandidates text) ⟨[], [], 0⟩
      ⟨by intro x hx; simp at hx, rfl, by
        show 10 * 0 ≤ 13 * t
        omega⟩
    simp only [chunk_text] at hc
    by_cases he : (List.foldl (packStep t o) (⟨[], [], 0⟩ : PackState)
        (splitCandidates text)).cur.isEmpty = true
    · rw [if_pos he] at hc
      exact hch c hc
    · rw [if_neg he] at hc
      rcases List.mem_append.mp hc with h1 | h1
      · exact hch c h1
      · have hco : c = joinNN (List.foldl (packStep t o) (⟨[], [], 0⟩ : PackState)
            (splitCandidates text)).cur := by simpa using h1
        subst hco
        refine joinNN_P t _ ?_ ?_
        · intro hnil
          rw [hnil] at he
          simp at he
        · omega
  · intro u hu hbig
    have hcu : charTokens u = (encodeT u).length := rfl
    obtain ⟨ps, r', heq, hr, hps, hne⟩ :=
      hardSplit_singleton (charTokens u + 4) t o [] u ht ho (by omega)
    have h0 : packStep t o ⟨[], [], 0⟩ u =
        hardSplit (charTokens u + 4) t o [] [u] (charTokens u) := by
      simp only [packStep]
      split
      · rename_i hfit
        exfalso
        have hle : 0 + (encodeT u).length ≤ t := hfit
        omega
      · rfl
    have hct : chunk_text text t o = ps ++ [r'] := by
      simp only [chunk_text, hu]
      rw [List.foldl_cons, List.foldl_nil, h0, heq]
      simp [joinNN]
    rw [hct]
    constructor
    · have h1 : 1 ≤ ps.length := by
        have h2 := hne hbig
        cases ps with
        | nil => exact absurd rfl h2
        | cons a l =>
          simp only [List.length_cons]
          omega
      rw [List.length_append]
      simp only [List.length_cons, List.length_nil]
      omega
    · intro c hc
      rcases List.mem_append.mp hc with h1 | h1
      · have := hps c h1
        omega
      · have hco : c = r' := by simpa using h1
        subst hco
        exact hr

/-- Witness for chunk_bound_amended: part one at the counterexample text, and
part two at a sixteen-character single-unit text with target 4 and overlap 1,
where the hard split yields five chunks of four tokens each. -/
theorem chunk_bound_amended_witness :
    (0 : Nat) < 10 ∧ (1 : Nat) < 10 ∧
    (∀ c ∈ chunk_text "a. b. c. d. e. f." 10 1,
      10 * charTokens c ≤ 13 * 10 + 20 * nlPairs c) ∧
    (0 : Nat) < 4 ∧ (1 : Nat) < 4 ∧
    splitCandidates "aaaaaaaaaaaaaaaa" = ["aaaaaaaaaaaaaaaa"] ∧
    13 * 4 < 10 * charTokens "aaaaaaaaaaaaaaaa" ∧
    2 ≤ (chunk_text "aaaaaaaaaaaaaaaa" 4 1).length ∧
    (∀ c ∈ chunk_text "aaaaaaaaaaaaaaaa" 4 1, 10 * charTokens c ≤ 13 * 4) :=
  ⟨by decide, by decide,
   (chunk_bound_amended 10 1 "a. b. c. d. e. f." (by decide) (by decide)).1,
   by decide, by decide, by decide, by decide,
   ((chunk_bound_amended 4 1 "aaaaaaaaaaaaaaaa" (by decide) (by decide)).2
     "aaaaaaaaaaaaaaaa" (by decide) (by decide)).1,
   ((chunk_bound_amended 4 1 "aaaaaaaaaaaaaaaa" (by decide) (by decide)).2
     "aaaaaaaaaaaaaaaa" (by decide) (by decide)).2⟩

end Flashgen
